import Mathlib

/-!
Verification of the Manga Secure Proxy + Silent Smart Cacher worker
(`src/server.js`) against its natural-language specification.

The worker has two halves:
* a request path: signature verification (`verifySignature`) gating a
  read-through cache-fill proxy (`handleMangaLogic`), and
* a scheduled path: a resumable, time-budgeted traversal engine
  (`runSmartCacher`) that warms pages of a manga -> chapter -> page
  hierarchy in fixed-size batches and checkpoints its position.

The definitions below are a shallow embedding of that JavaScript, with the
platform collaborators (network fetch, edge cache, KV store, Web Crypto
HMAC, wall clock) abstracted as explicit function parameters, so every
definition is executable and every claim can be evaluated on concrete
inputs.
-/

/-! ## Configuration constants (top of `server.js`) -/

def SECRET_KEY : String := "SUPER_SECRET_SAFE_KEY_123456"

def BATCH_SIZE : Nat := 5

def CACHE_TTL : Nat := 2592000

/-- The soft time budget, in milliseconds: `(Date.now() - startTime) > 24000`. -/
def SOFT_BUDGET : Nat := 24000

/-! ## Decimal digit printing

`natToString` models the JavaScript number-to-string conversion used by
template literals and `JSON.stringify` for the non-negative integers the
worker manipulates.  It is written with an explicit fuel argument so that
it is structurally recursive (hence kernel-reducible on concrete inputs).
-/

def natDigitsAux : Nat → Nat → List Char
  | 0, _ => []
  | F + 1, n =>
    if n < 10 then [Char.ofNat (48 + n)]
    else natDigitsAux F (n / 10) ++ [Char.ofNat (48 + n % 10)]

def natDigits (n : Nat) : List Char := natDigitsAux (n + 1) n

def natToString (n : Nat) : String := String.mk (natDigits n)

/-! ## Data model -/

/-- The persisted checkpoint triple `{mIdx, cIdx, pIdx}` (also the in-memory
`state` object of `runSmartCacher`). -/
structure Checkpoint where
  mIdx : Nat
  cIdx : Nat
  pIdx : Nat
deriving DecidableEq

/-- One catalog entry `{name, chapters}` of the external manga list feed. -/
structure Manga where
  name : String
  chapters : Nat
deriving DecidableEq

/-- One recorded call to `warmUpPage(manga.name, c, pageNum)`.  The manga
index `mIdx` is carried alongside the arguments of the call so that the
theorems can speak about positions in the catalog even when two catalog
entries share a name. -/
structure Attempt where
  mIdx : Nat
  chapter : Nat
  page : Nat
  name : String
deriving DecidableEq

/-- `JSON.stringify({ mIdx: i, cIdx: c, pIdx: p })` for the checkpoint
object, exactly the string written to the KV store key `nightly_step`. -/
def encodeState (cp : Checkpoint) : String :=
  "\x7b\"mIdx\":" ++ natToString cp.mIdx ++ ",\"cIdx\":" ++ natToString cp.cIdx
    ++ ",\"pIdx\":" ++ natToString cp.pIdx ++ "\x7d"

/-! ## Per-page warm-up (`warmUpPage`)

The network is abstracted as `origin : String → Option Nat`, mapping a URL
to the HTTP status of the fetched response, or `none` when the fetch
rejects (network error / timeout).  A rejection inside the `try` block
aborts the whole loop (`catch` returns `false`), so the fallback URL is
not tried after a thrown fetch — exactly as in the source.
-/

def tryUrls (origin : String → Option Nat) : List String → Bool
  | [] => false
  | u :: rest =>
    match origin u with
    | none => false
    | some s => if s = 200 then true else tryUrls origin rest

def warmBase (mangaName : String) (chapter : Nat) : String :=
  "https://cdne.megaman-server.ir/564/" ++ mangaName ++ "/" ++ natToString chapter

def warmUpPage (origin : String → Option Nat) (mangaName : String) (chapter page : Nat) : Bool :=
  tryUrls origin
    [warmBase mangaName chapter ++ "/HD/" ++ natToString page ++ ".webp",
     warmBase mangaName chapter ++ "/" ++ natToString page ++ ".webp"]

/-! ## Batch round (`runSmartCacher` inner `while` loop body) -/

/-- The five warm-up calls `warmUpPage(manga.name, c, p + b)` issued by one
batch round, in offset order (the order `batch.push` builds the
`Promise.all` array). -/
def batchAttempts (name : String) (i c p : Nat) : List Attempt :=
  (List.range BATCH_SIZE).map (fun b => ⟨i, c, p + b, name⟩)

/-- The boolean results of one batch round, in offset order. -/
def batchResults (warm : String → Nat → Nat → Bool) (name : String) (c p : Nat) : List Bool :=
  (List.range BATCH_SIZE).map (fun b => warm name c (p + b))

/-- `results.indexOf(false)` with a running index, returning `none` for
JavaScript's `-1`. -/
def idxOfFalse : List Bool → Nat → Option Nat
  | [], _ => none
  | r :: rest, j => if r == false then some j else idxOfFalse rest (j + 1)

/-- The relative index of the first failed page of a batch round
(`results.indexOf(false)`), if any. -/
def failIdx (warm : String → Nat → Nat → Bool) (name : String) (c p : Nat) : Option Nat :=
  idxOfFalse (batchResults warm name c p) 0

/-- The page offset after one batch round: `p + failIndex` when some page
failed, else `p + BATCH_SIZE`. -/
def batchAdvance (warm : String → Nat → Nat → Bool) (name : String) (c p : Nat) : Nat :=
  match failIdx warm name c p with
  | some k => p + k
  | none => p + BATCH_SIZE

/-! ## Page loop (`while (!chapterFinished)`)

`elapsed round` abstracts the value of `Date.now() - startTime` at the
`round`-th time-budget check of the invocation (rounds are numbered
globally across the whole invocation).  The loop is unbounded in the
source (a chapter whose pages never fail is scanned until the time budget
trips), so the embedding carries a fuel argument; `PageRes.fuelOut` is the
model artifact for exhausted fuel and corresponds to no behavior of the
source.
-/

inductive PageRes where
  | finished (finalP : Nat) (nextRound : Nat)
  | halted (cp : Checkpoint)
  | fuelOut
deriving DecidableEq

def runPages (warm : String → Nat → Nat → Bool) (elapsed : Nat → Nat)
    (name : String) (i c : Nat) : Nat → Nat → Nat → List Attempt × PageRes
  | 0, _, _ => ([], .fuelOut)
  | F + 1, p, round =>
    if SOFT_BUDGET < elapsed round then
      (batchAttempts name i c p, .halted ⟨i, c, batchAdvance warm name c p⟩)
    else if (failIdx warm name c p).isSome then
      (batchAttempts name i c p, .finished (batchAdvance warm name c p) (round + 1))
    else
      (batchAttempts name i c p ++
        (runPages warm elapsed name i c F (batchAdvance warm name c p) (round + 1)).1,
       (runPages warm elapsed name i c F (batchAdvance warm name c p) (round + 1)).2)

/-! ## Chapter loop (`for (let c = ...; c <= manga.chapters; c++)`) -/

/-- The initial page offset of chapter `c` of manga `i`:
`(i === state.mIdx && c === state.cIdx) ? state.pIdx : 0`. -/
def chapterStart (st : Checkpoint) (i c : Nat) : Nat :=
  if i = st.mIdx ∧ c = st.cIdx then st.pIdx else 0

inductive ChapRes where
  | finished (st : Checkpoint) (nextRound : Nat)
  | halted (cp : Checkpoint)
  | fuelOut
deriving DecidableEq

/-- One manga's chapter loop.  `K` is the countdown `chapters + 1 - c`
maintained by `runChapters`, making the recursion structural.  After a
chapter completes, `state.pIdx = 0` is executed, which the recursion
threads as the updated checkpoint record. -/
def runChaptersAux (warm : String → Nat → Nat → Bool) (elapsed : Nat → Nat)
    (name : String) (chapters i : Nat) :
    Nat → Checkpoint → Nat → Nat → Nat → List Attempt × ChapRes
  | 0, st, _, round, _ => ([], .finished st round)
  | K + 1, st, c, round, fuel =>
    if c ≤ chapters then
      match runPages warm elapsed name i c fuel (chapterStart st i c) round with
      | (atts, .finished _ r2) =>
        (atts ++ (runChaptersAux warm elapsed name chapters i K ⟨st.mIdx, st.cIdx, 0⟩ (c + 1) r2 fuel).1,
         (runChaptersAux warm elapsed name chapters i K ⟨st.mIdx, st.cIdx, 0⟩ (c + 1) r2 fuel).2)
      | (atts, .halted cp) => (atts, .halted cp)
      | (atts, .fuelOut) => (atts, .fuelOut)
    else ([], .finished st round)

def runChapters (warm : String → Nat → Nat → Bool) (elapsed : Nat → Nat)
    (name : String) (chapters i : Nat) (st : Checkpoint) (c round fuel : Nat) :
    List Attempt × ChapRes :=
  runChaptersAux warm elapsed name chapters i (chapters + 1 - c) st c round fuel

/-! ## Manga loop (`for (let i = state.mIdx; i < mangaList.length; i++)`) -/

/-- The initial chapter of manga `i`: `(i === state.mIdx ? state.cIdx : 1)`. -/
def mangaStartC (st : Checkpoint) (i : Nat) : Nat :=
  if i = st.mIdx then st.cIdx else 1

inductive RunRes where
  | completed
  | halted (cp : Checkpoint)
  | fuelOut
deriving DecidableEq

/-- The manga loop; `K` counts down `list.length - i`.  After a manga's
chapter loop completes, `state.cIdx = 1` is executed. -/
def runMangasAux (warm : String → Nat → Nat → Bool) (elapsed : Nat → Nat)
    (list : List Manga) : Nat → Checkpoint → Nat → Nat → Nat → List Attempt × RunRes
  | 0, _, _, _, _ => ([], .completed)
  | K + 1, st, i, round, fuel =>
    if h : i < list.length then
      let manga := list.get ⟨i, h⟩
      match runChapters warm elapsed manga.name manga.chapters i st (mangaStartC st i) round fuel with
      | (atts, .finished st2 r2) =>
        (atts ++ (runMangasAux warm elapsed list K ⟨st2.mIdx, 1, st2.pIdx⟩ (i + 1) r2 fuel).1,
         (runMangasAux warm elapsed list K ⟨st2.mIdx, 1, st2.pIdx⟩ (i + 1) r2 fuel).2)
      | (atts, .halted cp) => (atts, .halted cp)
      | (atts, .fuelOut) => (atts, .fuelOut)
    else ([], .completed)

def runMangas (warm : String → Nat → Nat → Bool) (elapsed : Nat → Nat)
    (list : List Manga) (st : Checkpoint) (i round fuel : Nat) : List Attempt × RunRes :=
  runMangasAux warm elapsed list (list.length - i) st i round fuel

/-! ## Whole scheduled invocation (`runSmartCacher`) -/

/-- Outcome of the catalog fetch (`fetch(JSON_CONFIG_URL)` guarded by a
10-second abort): rejection (network error or timeout), non-ok status,
payload that is not a JSON array, or a manga list. -/
inductive CatalogFetch where
  | netError
  | httpError
  | badJson
  | ok (list : List Manga)

/-- Observable effects of one invocation: the `warmUpPage` calls it makes,
and the values it writes to the KV key `nightly_step` (as serialized
strings), in order. -/
structure RunOutput where
  attempts : List Attempt
  puts : List String
deriving DecidableEq

/-- One invocation of `runSmartCacher`, given the catalog fetch outcome and
the already-loaded checkpoint `st` (checkpoint loading from the raw KV
string is modelled separately by `loadState`). -/
def runSmartCacher (cat : CatalogFetch) (st : Checkpoint) (origin : String → Option Nat)
    (elapsed : Nat → Nat) (fuel : Nat) : RunOutput :=
  match cat with
  | .netError => ⟨[], []⟩
  | .httpError => ⟨[], []⟩
  | .badJson => ⟨[], []⟩
  | .ok list =>
    match runMangas (fun nm c p => warmUpPage origin nm c p) elapsed list st st.mIdx 0 fuel with
    | (atts, .completed) => ⟨atts, [encodeState ⟨0, 1, 0⟩]⟩
    | (atts, .halted cp) => ⟨atts, [encodeState cp]⟩
    | (atts, .fuelOut) => ⟨atts, []⟩

/-! ## Basic facts about one batch round -/

theorem batchAttempts_length (name : String) (i c p : Nat) :
    (batchAttempts name i c p).length = BATCH_SIZE := by
  simp [batchAttempts]

theorem mem_batchAttempts {name : String} {i c p : Nat} {a : Attempt} :
    a ∈ batchAttempts name i c p ↔ ∃ b, b < BATCH_SIZE ∧ a = ⟨i, c, p + b, name⟩ := by
  simp only [batchAttempts, List.mem_map, List.mem_range]
  constructor
  · rintro ⟨b, hb, rfl⟩; exact ⟨b, hb, rfl⟩
  · rintro ⟨b, hb, rfl⟩; exact ⟨b, hb, rfl⟩

theorem self_mem_batchAttempts (name : String) (i c p : Nat) :
    (⟨i, c, p, name⟩ : Attempt) ∈ batchAttempts name i c p := by
  rw [mem_batchAttempts]
  exact ⟨0, by simp [BATCH_SIZE], by simp⟩

theorem batchAttempts_head (name : String) (i c p : Nat) :
    (batchAttempts name i c p).head? = some ⟨i, c, p, name⟩ := by
  have h5 : List.range BATCH_SIZE = [0, 1, 2, 3, 4] := rfl
  simp [batchAttempts, h5]

theorem batchResults_get (warm : String → Nat → Nat → Bool) (name : String) (c p : Nat)
    {b : Nat} (hb : b < BATCH_SIZE) :
    (batchResults warm name c p).get? b = some (warm name c (p + b)) := by
  simp only [batchResults, List.get?_eq_getElem?, List.getElem?_map]
  simp [hb]

theorem batchResults_length (warm : String → Nat → Nat → Bool) (name : String) (c p : Nat) :
    (batchResults warm name c p).length = BATCH_SIZE := by
  simp [batchResults]

theorem idxOfFalse_some : ∀ (l : List Bool) (j k : Nat), idxOfFalse l j = some k →
    ∃ d, k = j + d ∧ d < l.length ∧ l.get? d = some false ∧
      ∀ b, b < d → l.get? b = some true := by
  intro l
  induction l with
  | nil => intro j k h; simp [idxOfFalse] at h
  | cons r rest ih =>
    intro j k h
    simp only [idxOfFalse] at h
    by_cases hr : r = false
    · subst hr
      simp at h
      exact ⟨0, by omega, by simp, by simp, fun b hb => absurd hb (Nat.not_lt_zero b)⟩
    · have hr' : r = true := by cases r <;> simp_all
      subst hr'
      simp at h
      obtain ⟨d, hd, hlen, hget, hall⟩ := ih (j + 1) k h
      refine ⟨d + 1, by omega, by simp; omega, by simpa using hget, ?_⟩
      intro b hb
      cases b with
      | zero => simp
      | succ b => simpa using hall b (by omega)

theorem idxOfFalse_none : ∀ (l : List Bool) (j : Nat), idxOfFalse l j = none →
    ∀ x ∈ l, x = true := by
  intro l
  induction l with
  | nil => intro j _ x hx; simp at hx
  | cons r rest ih =>
    intro j h x hx
    simp only [idxOfFalse] at h
    by_cases hr : r = false
    · subst hr; simp at h
    · have hr' : r = true := by cases r <;> simp_all
      subst hr'
      simp at h
      rcases List.mem_cons.mp hx with rfl | hx'
      · rfl
      · exact ih (j + 1) h x hx'

theorem failIdx_some {warm : String → Nat → Nat → Bool} {name : String} {c p k : Nat}
    (h : failIdx warm name c p = some k) :
    k < BATCH_SIZE ∧ warm name c (p + k) = false ∧
      ∀ b, b < k → warm name c (p + b) = true := by
  obtain ⟨d, hd, hlen, hget, hall⟩ := idxOfFalse_some _ _ _ h
  have hd0 : k = d := by omega
  subst hd0
  rw [batchResults_length] at hlen
  refine ⟨hlen, ?_, ?_⟩
  · have := batchResults_get warm name c p hlen
    rw [this] at hget
    simpa using hget
  · intro b hb
    have hb' : b < BATCH_SIZE := by omega
    have := batchResults_get warm name c p hb'
    have h2 := hall b hb
    rw [this] at h2
    simpa using h2

theorem failIdx_none {warm : String → Nat → Nat → Bool} {name : String} {c p : Nat}
    (h : failIdx warm name c p = none) :
    ∀ b, b < BATCH_SIZE → warm name c (p + b) = true := by
  intro b hb
  have hmem : warm name c (p + b) ∈ batchResults warm name c p := by
    simp only [batchResults, List.mem_map]
    exact ⟨b, by simpa using hb, rfl⟩
  exact idxOfFalse_none _ _ h _ hmem

theorem batchAdvance_ge (warm : String → Nat → Nat → Bool) (name : String) (c p : Nat) :
    p ≤ batchAdvance warm name c p := by
  unfold batchAdvance
  cases failIdx warm name c p <;> simp

theorem batchAdvance_of_some {warm : String → Nat → Nat → Bool} {name : String} {c p k : Nat}
    (h : failIdx warm name c p = some k) : batchAdvance warm name c p = p + k := by
  simp [batchAdvance, h]

theorem batchAdvance_of_none {warm : String → Nat → Nat → Bool} {name : String} {c p : Nat}
    (h : failIdx warm name c p = none) : batchAdvance warm name c p = p + BATCH_SIZE := by
  simp [batchAdvance, h]

/-! ## Structure of the page loop -/

theorem runPages_mem (warm : String → Nat → Nat → Bool) (elapsed : Nat → Nat)
    (name : String) (i c : Nat) :
    ∀ F p round, ∀ a ∈ (runPages warm elapsed name i c F p round).1,
      a.mIdx = i ∧ a.chapter = c ∧ a.name = name ∧ p ≤ a.page := by
  intro F
  induction F with
  | zero => intro p round a ha; simp [runPages] at ha
  | succ F ih =>
    intro p round a ha
    simp only [runPages] at ha
    split_ifs at ha with h1 h2
    · obtain ⟨b, _, rfl⟩ := mem_batchAttempts.mp ha
      exact ⟨rfl, rfl, rfl, Nat.le_add_right _ _⟩
    · obtain ⟨b, _, rfl⟩ := mem_batchAttempts.mp ha
      exact ⟨rfl, rfl, rfl, Nat.le_add_right _ _⟩
    · rcases List.mem_append.mp ha with hb | hr
      · obtain ⟨b, _, rfl⟩ := mem_batchAttempts.mp hb
        exact ⟨rfl, rfl, rfl, Nat.le_add_right _ _⟩
      · obtain ⟨h3, h4, h5, h6⟩ := ih _ _ a hr
        exact ⟨h3, h4, h5, le_trans (batchAdvance_ge warm name c p) h6⟩

theorem runPages_succ_shape (warm : String → Nat → Nat → Bool) (elapsed : Nat → Nat)
    (name : String) (i c F p round : Nat) :
    ∃ A2, (runPages warm elapsed name i c (F + 1) p round).1 = batchAttempts name i c p ++ A2 := by
  simp only [runPages]
  split_ifs with h1 h2
  · exact ⟨[], by simp⟩
  · exact ⟨[], by simp⟩
  · exact ⟨_, rfl⟩

theorem runPages_start_mem (warm : String → Nat → Nat → Bool) (elapsed : Nat → Nat)
    (name : String) (i c : Nat) :
    ∀ F p round, ∀ a ∈ (runPages warm elapsed name i c F p round).1,
      (⟨i, c, p, name⟩ : Attempt) ∈ (runPages warm elapsed name i c F p round).1 := by
  intro F p round a ha
  cases F with
  | zero => simp [runPages] at ha
  | succ F =>
    obtain ⟨A2, hA⟩ := runPages_succ_shape warm elapsed name i c F p round
    rw [hA]
    exact List.mem_append_left _ (self_mem_batchAttempts name i c p)

/-- Round accounting for the page loop: the number of rounds executed, the
governor consultation at every round, and — on a time-budget halt — the
saved checkpoint being exactly the post-round offset of the final batch. -/
theorem runPages_rounds (warm : String → Nat → Nat → Bool) (elapsed : Nat → Nat)
    (name : String) (i c : Nat) :
    ∀ F p round A res, runPages warm elapsed name i c F p round = (A, res) →
      ∃ n, A.length = BATCH_SIZE * n ∧
        (res = .fuelOut → n = F ∧ ∀ m, m < n → elapsed (round + m) ≤ SOFT_BUDGET) ∧
        (∀ fp r2, res = .finished fp r2 →
          1 ≤ n ∧ r2 = round + n ∧ ∀ m, m < n → elapsed (round + m) ≤ SOFT_BUDGET) ∧
        (∀ cp, res = .halted cp →
          1 ≤ n ∧ SOFT_BUDGET < elapsed (round + n - 1) ∧
          (∀ m, m < n - 1 → elapsed (round + m) ≤ SOFT_BUDGET) ∧
          ∃ pre p0, A = pre ++ batchAttempts name i c p0 ∧
            cp = ⟨i, c, batchAdvance warm name c p0⟩) := by
  intro F
  induction F with
  | zero =>
    intro p round A res h
    simp only [runPages] at h
    injection h with h1 h2
    subst h1
    subst h2
    refine ⟨0, by simp, fun _ => ⟨rfl, fun m hm => absurd hm (Nat.not_lt_zero m)⟩, ?_, ?_⟩
    · intro fp r2 hres; cases hres
    · intro cp hres; cases hres
  | succ F ih =>
    intro p round A res h
    simp only [runPages] at h
    split_ifs at h with h1 h2
    · -- time-budget halt after this round
      injection h with hA hres
      subst hA
      subst hres
      refine ⟨1, ?_, ?_, ?_, ?_⟩
      · simp [batchAttempts_length]
      · intro hx; cases hx
      · intro fp r2 hx; cases hx
      · intro cp hx
        injection hx with hcp
        subst hcp
        exact ⟨le_refl 1, by simpa using h1, fun m hm => absurd hm (by omega), [], p, by simp, rfl⟩
    · -- chapter finished (some page failed), budget ok
      injection h with hA hres
      subst hA
      subst hres
      refine ⟨1, ?_, ?_, ?_, ?_⟩
      · simp [batchAttempts_length]
      · intro hx; cases hx
      · intro fp r2 hx
        injection hx with hfp hr2
        subst hr2
        refine ⟨le_refl 1, rfl, ?_⟩
        intro m hm
        have hm0 : m = 0 := by omega
        subst hm0
        simpa using le_of_not_lt h1
      · intro cp hx; cases hx
    · -- all pages succeeded, budget ok: continue
      injection h with hA hres
      subst hA
      subst hres
      obtain ⟨n, hlen, hfo, hfin, hhalt⟩ :=
        ih (batchAdvance warm name c p) (round + 1)
          (runPages warm elapsed name i c F (batchAdvance warm name c p) (round + 1)).1
          (runPages warm elapsed name i c F (batchAdvance warm name c p) (round + 1)).2 rfl
      refine ⟨n + 1, ?_, ?_, ?_, ?_⟩
      · simp only [List.length_append, batchAttempts_length, hlen, Nat.mul_succ]
        omega
      · intro hres
        obtain ⟨hnF, hall⟩ := hfo hres
        refine ⟨by omega, ?_⟩
        intro m hm
        cases m with
        | zero => simpa using le_of_not_lt h1
        | succ m =>
          have hx := hall m (by omega)
          have heq : round + (m + 1) = round + 1 + m := by omega
          rw [heq]
          exact hx
      · intro fp r2 hres
        obtain ⟨hn1, hr2, hall⟩ := hfin fp r2 hres
        refine ⟨by omega, by omega, ?_⟩
        intro m hm
        cases m with
        | zero => simpa using le_of_not_lt h1
        | succ m =>
          have hx := hall m (by omega)
          have heq : round + (m + 1) = round + 1 + m := by omega
          rw [heq]
          exact hx
      · intro cp hres
        obtain ⟨hn1, hlate, hall, pre, p0, hA, hcp⟩ := hhalt cp hres
        refine ⟨by omega, ?_, ?_, batchAttempts name i c p ++ pre, p0, ?_, hcp⟩
        · have heq : round + (n + 1) - 1 = round + 1 + n - 1 := by omega
          rw [heq]
          exact hlate
        · intro m hm
          cases m with
          | zero => simpa using le_of_not_lt h1
          | succ m =>
            have hx := hall m (by omega)
            have heq : round + (m + 1) = round + 1 + m := by omega
            rw [heq]
            exact hx
        · rw [hA, List.append_assoc]

/-! ## Structure of the chapter loop -/

theorem chapterStart_zero {st : Checkpoint} (h : st.pIdx = 0) (i c : Nat) :
    chapterStart st i c = 0 := by
  unfold chapterStart
  split_ifs <;> simp [h]

theorem runChaptersAux_mem (warm : String → Nat → Nat → Bool) (elapsed : Nat → Nat)
    (name : String) (chapters i : Nat) :
    ∀ K st c round fuel, ∀ a ∈ (runChaptersAux warm elapsed name chapters i K st c round fuel).1,
      a.mIdx = i ∧ a.name = name ∧ c ≤ a.chapter ∧ a.chapter ≤ chapters ∧
        (a.chapter = c → chapterStart st i c ≤ a.page) := by
  intro K
  induction K with
  | zero => intro st c round fuel a ha; simp [runChaptersAux] at ha
  | succ K ih =>
    intro st c round fuel a ha
    simp only [runChaptersAux] at ha
    by_cases hc : c ≤ chapters
    · rw [if_pos hc] at ha
      rcases hp : runPages warm elapsed name i c fuel (chapterStart st i c) round with ⟨atts, pres⟩
      rw [hp] at ha
      have hpm := runPages_mem warm elapsed name i c fuel (chapterStart st i c) round
      rw [hp] at hpm
      cases pres with
      | finished fp r2 =>
        simp only at ha
        rcases List.mem_append.mp ha with hb | hr
        · obtain ⟨h1, h2, h3, h4⟩ := hpm a hb
          exact ⟨h1, h3, le_of_eq h2.symm, h2 ▸ hc, fun _ => h4⟩
        · obtain ⟨h1, h2, h3, h4, h5⟩ := ih _ _ _ _ a hr
          exact ⟨h1, h2, by omega, h4, fun hac => absurd (hac ▸ h3) (by omega)⟩
      | halted cp =>
        simp only at ha
        obtain ⟨h1, h2, h3, h4⟩ := hpm a ha
        exact ⟨h1, h3, le_of_eq h2.symm, h2 ▸ hc, fun _ => h4⟩
      | fuelOut =>
        simp only at ha
        obtain ⟨h1, h2, h3, h4⟩ := hpm a ha
        exact ⟨h1, h3, le_of_eq h2.symm, h2 ▸ hc, fun _ => h4⟩
    · rw [if_neg hc] at ha
      simp at ha

theorem runChaptersAux_finished_state (warm : String → Nat → Nat → Bool) (elapsed : Nat → Nat)
    (name : String) (chapters i : Nat) :
    ∀ K st c round fuel st2 r2,
      (runChaptersAux warm elapsed name chapters i K st c round fuel).2 = .finished st2 r2 →
      st2.mIdx = st.mIdx ∧ st2.cIdx = st.cIdx ∧ (st2.pIdx = 0 ∨ st2 = st) := by
  intro K
  induction K with
  | zero =>
    intro st c round fuel st2 r2 h
    simp only [runChaptersAux] at h
    injection h with h1 h2
    subst h1
    exact ⟨rfl, rfl, Or.inr rfl⟩
  | succ K ih =>
    intro st c round fuel st2 r2 h
    simp only [runChaptersAux] at h
    by_cases hc : c ≤ chapters
    · rw [if_pos hc] at h
      rcases hp : runPages warm elapsed name i c fuel (chapterStart st i c) round with ⟨atts, pres⟩
      rw [hp] at h
      cases pres with
      | finished fp r3 =>
        simp only at h
        obtain ⟨h1, h2, h3⟩ := ih _ _ _ _ _ _ h
        refine ⟨h1, h2, Or.inl ?_⟩
        rcases h3 with h3 | h3
        · exact h3
        · rw [h3]
      | halted cp => simp at h
      | fuelOut => simp at h
    · rw [if_neg hc] at h
      injection h with h1 h2
      subst h1
      exact ⟨rfl, rfl, Or.inr rfl⟩

/-- Whenever the chapter loop makes any attempt at all, its very first
attempt — chapter `c` at the chapter's start offset — is among them. -/
theorem runChaptersAux_first (warm : String → Nat → Nat → Bool) (elapsed : Nat → Nat)
    (name : String) (chapters i : Nat) :
    ∀ K st c round fuel, ∀ a ∈ (runChaptersAux warm elapsed name chapters i K st c round fuel).1,
      (⟨i, c, chapterStart st i c, name⟩ : Attempt) ∈
        (runChaptersAux warm elapsed name chapters i K st c round fuel).1 := by
  intro K
  induction K with
  | zero => intro st c round fuel a ha; simp [runChaptersAux] at ha
  | succ K _ =>
    intro st c round fuel a ha
    simp only [runChaptersAux] at ha ⊢
    by_cases hc : c ≤ chapters
    · rw [if_pos hc] at ha ⊢
      rcases hp : runPages warm elapsed name i c fuel (chapterStart st i c) round with ⟨atts, pres⟩
      rw [hp] at ha
      have hsm := runPages_start_mem warm elapsed name i c fuel (chapterStart st i c) round
      rw [hp] at hsm
      cases pres with
      | finished fp r2 =>
        simp only at ha ⊢
        rcases List.mem_append.mp ha with hb | hr
        · exact List.mem_append_left _ (hsm a hb)
        · -- the recursive part is nonempty only when this chapter ran at least one round,
          -- but membership in the first chapter's batch is needed; fuel must be ≥ 1 here
          -- since a finished page loop always executes one round.
          rcases fuel with _ | F
          · simp [runPages] at hp
          · obtain ⟨A2, hA⟩ := runPages_succ_shape warm elapsed name i c F (chapterStart st i c) round
            rw [hp] at hA
            simp only at hA
            refine List.mem_append_left _ ?_
            rw [hA]
            exact List.mem_append_left _ (self_mem_batchAttempts name i c (chapterStart st i c))
      | halted cp =>
        simp only at ha ⊢
        exact hsm a ha
      | fuelOut =>
        simp only at ha ⊢
        exact hsm a ha
    · rw [if_neg hc] at ha
      simp at ha

/-- Every chapter the loop enters after its first one starts at page offset 0:
any attempt at a chapter above the entry chapter `c` is accompanied by a
page-0 attempt at that same chapter. -/
theorem runChaptersAux_zero_page (warm : String → Nat → Nat → Bool) (elapsed : Nat → Nat)
    (name : String) (chapters i : Nat) :
    ∀ K st c round fuel, ∀ a ∈ (runChaptersAux warm elapsed name chapters i K st c round fuel).1,
      c < a.chapter →
      (⟨i, a.chapter, 0, name⟩ : Attempt) ∈
        (runChaptersAux warm elapsed name chapters i K st c round fuel).1 := by
  intro K
  induction K with
  | zero => intro st c round fuel a ha; simp [runChaptersAux] at ha
  | succ K ih =>
    intro st c round fuel a ha hlt
    simp only [runChaptersAux] at ha ⊢
    by_cases hc : c ≤ chapters
    · rw [if_pos hc] at ha ⊢
      rcases hp : runPages warm elapsed name i c fuel (chapterStart st i c) round with ⟨atts, pres⟩
      rw [hp] at ha
      have hpm := runPages_mem warm elapsed name i c fuel (chapterStart st i c) round
      rw [hp] at hpm
      cases pres with
      | finished fp r2 =>
        simp only at ha ⊢
        rcases List.mem_append.mp ha with hb | hr
        · obtain ⟨_, h2, _, _⟩ := hpm a hb
          omega
        · rcases Nat.lt_or_ge c (a.chapter - 1) with hx | hx
          · -- a.chapter > c + 1: recurse
            exact List.mem_append_right _ (ih _ _ _ _ a hr (by omega))
          · -- a.chapter = c + 1: it is the first chapter of the recursive call
            have hc1 : a.chapter = c + 1 := by
              obtain ⟨_, _, h3, _, _⟩ := runChaptersAux_mem warm elapsed name chapters i
                K ⟨st.mIdx, st.cIdx, 0⟩ (c+1) r2 fuel a hr
              omega
            have hz := runChaptersAux_first warm elapsed name chapters i
              K ⟨st.mIdx, st.cIdx, 0⟩ (c+1) r2 fuel a hr
            rw [chapterStart_zero rfl] at hz
            rw [hc1]
            exact List.mem_append_right _ hz
      | halted cp =>
        simp only at ha ⊢
        obtain ⟨_, h2, _, _⟩ := hpm a ha
        omega
      | fuelOut =>
        simp only at ha ⊢
        obtain ⟨_, h2, _, _⟩ := hpm a ha
        omega
    · rw [if_neg hc] at ha
      simp at ha

theorem allOk_append {elapsed : Nat → Nat} {r a b : Nat}
    (h1 : ∀ m, m < a → elapsed (r + m) ≤ SOFT_BUDGET)
    (h2 : ∀ m, m < b → elapsed (r + a + m) ≤ SOFT_BUDGET) :
    ∀ m, m < a + b → elapsed (r + m) ≤ SOFT_BUDGET := by
  intro m hm
  rcases Nat.lt_or_ge m a with h | h
  · exact h1 m h
  · have hx := h2 (m - a) (by omega)
    have heq : r + a + (m - a) = r + m := by omega
    rwa [heq] at hx

/-- Round accounting for the chapter loop. -/
theorem runChaptersAux_rounds (warm : String → Nat → Nat → Bool) (elapsed : Nat → Nat)
    (name : String) (chapters i : Nat) :
    ∀ K st c round fuel A res,
      runChaptersAux warm elapsed name chapters i K st c round fuel = (A, res) →
      ∃ n, A.length = BATCH_SIZE * n ∧
        (∀ st2 r2, res = .finished st2 r2 →
          r2 = round + n ∧ ∀ m, m < n → elapsed (round + m) ≤ SOFT_BUDGET) ∧
        (res = .fuelOut → ∀ m, m < n → elapsed (round + m) ≤ SOFT_BUDGET) ∧
        (∀ cp, res = .halted cp →
          1 ≤ n ∧ SOFT_BUDGET < elapsed (round + n - 1) ∧
          (∀ m, m < n - 1 → elapsed (round + m) ≤ SOFT_BUDGET) ∧
          cp.mIdx = i ∧ cp.cIdx ≤ chapters ∧ c ≤ cp.cIdx ∧
          ∃ pre p0, A = pre ++ batchAttempts name i cp.cIdx p0 ∧
            cp.pIdx = batchAdvance warm name cp.cIdx p0) := by
  intro K
  induction K with
  | zero =>
    intro st c round fuel A res h
    simp only [runChaptersAux] at h
    injection h with h1 h2
    subst h1
    subst h2
    refine ⟨0, by simp, ?_, ?_, ?_⟩
    · intro st2 r2 hx
      injection hx with hst hr
      subst hr
      exact ⟨by omega, fun m hm => absurd hm (by omega)⟩
    · intro hx; cases hx
    · intro cp hx; cases hx
  | succ K ih =>
    intro st c round fuel A res h
    simp only [runChaptersAux] at h
    by_cases hc : c ≤ chapters
    · rw [if_pos hc] at h
      rcases hp : runPages warm elapsed name i c fuel (chapterStart st i c) round with ⟨atts, pres⟩
      rw [hp] at h
      obtain ⟨n1, hlen1, hfo1, hfin1, hhalt1⟩ :=
        runPages_rounds warm elapsed name i c fuel (chapterStart st i c) round atts pres hp
      cases pres with
      | finished fp r2 =>
        simp only at h
        injection h with hA hres
        subst hA
        subst hres
        obtain ⟨hn1, hr2, hok1⟩ := hfin1 fp r2 rfl
        subst hr2
        obtain ⟨n2, hlen2, hfin2, hfo2, hhalt2⟩ := ih ⟨st.mIdx, st.cIdx, 0⟩ (c+1) (round + n1) fuel
          (runChaptersAux warm elapsed name chapters i K ⟨st.mIdx, st.cIdx, 0⟩ (c+1) (round + n1) fuel).1
          (runChaptersAux warm elapsed name chapters i K ⟨st.mIdx, st.cIdx, 0⟩ (c+1) (round + n1) fuel).2 rfl
        refine ⟨n1 + n2, ?_, ?_, ?_, ?_⟩
        · simp [hlen1, hlen2, Nat.mul_add]
        · intro st2 r3 hres
          obtain ⟨hr3, hok2⟩ := hfin2 st2 r3 hres
          exact ⟨by omega, allOk_append hok1 hok2⟩
        · intro hres
          exact allOk_append hok1 (hfo2 hres)
        · intro cp hres
          obtain ⟨hn2, hlate, hok2, hmi, hci, hcc, pre, p0, hA, hpi⟩ := hhalt2 cp hres
          refine ⟨by omega, ?_, ?_, hmi, hci, by omega, atts ++ pre, p0, ?_, hpi⟩
          · have heq : round + (n1 + n2) - 1 = round + n1 + n2 - 1 := by omega
            rw [heq]
            exact hlate
          · have hx := allOk_append hok1 (a := n1) (b := n2 - 1) ?_
            · intro m hm
              exact hx m (by omega)
            · intro m hm
              exact hok2 m hm
          · rw [hA, List.append_assoc]
      | halted cp =>
        simp only at h
        injection h with hA hres
        subst hA
        subst hres
        obtain ⟨hn1, hlate, hok, pre, p0, hA, hcp⟩ := hhalt1 cp rfl
        subst hcp
        refine ⟨n1, hlen1, ?_, ?_, ?_⟩
        · intro st2 r2 hx; cases hx
        · intro hx; cases hx
        · intro cp2 hx
          injection hx with hcp2
          subst hcp2
          exact ⟨hn1, hlate, hok, rfl, hc, le_refl c, pre, p0, hA, rfl⟩
      | fuelOut =>
        simp only at h
        injection h with hA hres
        subst hA
        subst hres
        refine ⟨n1, hlen1, ?_, ?_, ?_⟩
        · intro st2 r2 hx; cases hx
        · intro hx
          exact (hfo1 rfl).2
        · intro cp hx; cases hx
    · rw [if_neg hc] at h
      injection h with h1 h2
      subst h1
      subst h2
      refine ⟨0, by simp, ?_, ?_, ?_⟩
      · intro st2 r2 hx
        injection hx with hst hr
        subst hr
        exact ⟨by omega, fun m hm => absurd hm (by omega)⟩
      · intro hx; cases hx
      · intro cp hx; cases hx

/-! ## Structure of the manga loop -/

theorem mangaStartC_of_one {st : Checkpoint} (h : st.cIdx = 1) (j : Nat) :
    mangaStartC st j = 1 := by
  unfold mangaStartC
  split_ifs <;> simp [h]

theorem mangaStartC_of_ne {st : Checkpoint} {j : Nat} (h : j ≠ st.mIdx) :
    mangaStartC st j = 1 := by
  simp [mangaStartC, h]

theorem chapterStart_of_ne {st : Checkpoint} {j : Nat} (h : j ≠ st.mIdx) (c : Nat) :
    chapterStart st j c = 0 := by
  simp [chapterStart, h]

theorem runMangasAux_mem (warm : String → Nat → Nat → Bool) (elapsed : Nat → Nat)
    (list : List Manga) :
    ∀ K st i round fuel, st.mIdx ≤ i →
      ∀ a ∈ (runMangasAux warm elapsed list K st i round fuel).1,
        i ≤ a.mIdx ∧ a.mIdx < list.length ∧
        mangaStartC st a.mIdx ≤ a.chapter ∧
        (∀ hm : a.mIdx < list.length,
          a.name = (list.get ⟨a.mIdx, hm⟩).name ∧
          a.chapter ≤ (list.get ⟨a.mIdx, hm⟩).chapters) ∧
        (a.mIdx = i → a.chapter = mangaStartC st i → chapterStart st i a.chapter ≤ a.page) := by
  intro K
  induction K with
  | zero => intro st i round fuel _ a ha; simp [runMangasAux] at ha
  | succ K ih =>
    intro st i round fuel Hst a ha
    simp only [runMangasAux] at ha
    by_cases hi : i < list.length
    · rw [dif_pos hi] at ha
      rcases hp : runChapters warm elapsed (list.get ⟨i, hi⟩).name (list.get ⟨i, hi⟩).chapters
          i st (mangaStartC st i) round fuel with ⟨atts, cres⟩
      rw [hp] at ha
      have hcm := runChaptersAux_mem warm elapsed (list.get ⟨i, hi⟩).name
        (list.get ⟨i, hi⟩).chapters i ((list.get ⟨i, hi⟩).chapters + 1 - mangaStartC st i)
        st (mangaStartC st i) round fuel
      rw [show runChaptersAux warm elapsed (list.get ⟨i, hi⟩).name (list.get ⟨i, hi⟩).chapters i
          ((list.get ⟨i, hi⟩).chapters + 1 - mangaStartC st i) st (mangaStartC st i) round fuel
          = runChapters warm elapsed (list.get ⟨i, hi⟩).name (list.get ⟨i, hi⟩).chapters
            i st (mangaStartC st i) round fuel from rfl, hp] at hcm
      cases cres with
      | finished st2 r2 =>
        have hst2 := runChaptersAux_finished_state warm elapsed (list.get ⟨i, hi⟩).name
          (list.get ⟨i, hi⟩).chapters i ((list.get ⟨i, hi⟩).chapters + 1 - mangaStartC st i)
          st (mangaStartC st i) round fuel st2 r2 (by rw [show runChaptersAux warm elapsed
            (list.get ⟨i, hi⟩).name (list.get ⟨i, hi⟩).chapters i
            ((list.get ⟨i, hi⟩).chapters + 1 - mangaStartC st i) st (mangaStartC st i) round fuel
            = runChapters warm elapsed (list.get ⟨i, hi⟩).name (list.get ⟨i, hi⟩).chapters
              i st (mangaStartC st i) round fuel from rfl, hp])
        simp only at ha
        rcases List.mem_append.mp ha with hb | hr
        · obtain ⟨h1, h2, h3, h4, h5⟩ := hcm a hb
          refine ⟨le_of_eq h1.symm, h1 ▸ hi, ?_, ?_, ?_⟩
          · rw [h1]; exact h3
          · intro hm
            constructor
            · rw [show (⟨a.mIdx, hm⟩ : Fin list.length) = ⟨i, hi⟩ from by simp [h1]]
              exact h2
            · rw [show (⟨a.mIdx, hm⟩ : Fin list.length) = ⟨i, hi⟩ from by simp [h1]]
              exact h4
          · intro _ hch
            rw [hch]
            exact h5 hch
        · have Hst2 : (⟨st2.mIdx, 1, st2.pIdx⟩ : Checkpoint).mIdx ≤ i + 1 := by
            simp only
            have := hst2.1
            omega
          obtain ⟨h1, h2, h3, h4, h5⟩ := ih ⟨st2.mIdx, 1, st2.pIdx⟩ (i+1) r2 fuel Hst2 a hr
          refine ⟨by omega, h2, ?_, h4, ?_⟩
          · have ha1 : mangaStartC (⟨st2.mIdx, 1, st2.pIdx⟩ : Checkpoint) a.mIdx = 1 :=
              mangaStartC_of_one rfl a.mIdx
            have ha2 : mangaStartC st a.mIdx = 1 := by
              refine mangaStartC_of_ne ?_
              omega
            omega
          · intro hx
            omega
      | halted cp =>
        simp only at ha
        obtain ⟨h1, h2, h3, h4, h5⟩ := hcm a ha
        refine ⟨le_of_eq h1.symm, h1 ▸ hi, ?_, ?_, ?_⟩
        · rw [h1]; exact h3
        · intro hm
          constructor
          · rw [show (⟨a.mIdx, hm⟩ : Fin list.length) = ⟨i, hi⟩ from by simp [h1]]
            exact h2
          · rw [show (⟨a.mIdx, hm⟩ : Fin list.length) = ⟨i, hi⟩ from by simp [h1]]
            exact h4
        · intro _ hch
          rw [hch]
          exact h5 hch
      | fuelOut =>
        simp only at ha
        obtain ⟨h1, h2, h3, h4, h5⟩ := hcm a ha
        refine ⟨le_of_eq h1.symm, h1 ▸ hi, ?_, ?_, ?_⟩
        · rw [h1]; exact h3
        · intro hm
          constructor
          · rw [show (⟨a.mIdx, hm⟩ : Fin list.length) = ⟨i, hi⟩ from by simp [h1]]
            exact h2
          · rw [show (⟨a.mIdx, hm⟩ : Fin list.length) = ⟨i, hi⟩ from by simp [h1]]
            exact h4
        · intro _ hch
          rw [hch]
          exact h5 hch
    · rw [dif_neg hi] at ha
      simp at ha

theorem runChapters_mem (warm : String → Nat → Nat → Bool) (elapsed : Nat → Nat)
    (name : String) (chapters i : Nat) (st : Checkpoint) (c round fuel : Nat) :
    ∀ a ∈ (runChapters warm elapsed name chapters i st c round fuel).1,
      a.mIdx = i ∧ a.name = name ∧ c ≤ a.chapter ∧ a.chapter ≤ chapters ∧
        (a.chapter = c → chapterStart st i c ≤ a.page) :=
  runChaptersAux_mem warm elapsed name chapters i (chapters + 1 - c) st c round fuel

theorem runChapters_first (warm : String → Nat → Nat → Bool) (elapsed : Nat → Nat)
    (name : String) (chapters i : Nat) (st : Checkpoint) (c round fuel : Nat) :
    ∀ a ∈ (runChapters warm elapsed name chapters i st c round fuel).1,
      (⟨i, c, chapterStart st i c, name⟩ : Attempt) ∈
        (runChapters warm elapsed name chapters i st c round fuel).1 :=
  runChaptersAux_first warm elapsed name chapters i (chapters + 1 - c) st c round fuel

theorem runChapters_zero_page (warm : String → Nat → Nat → Bool) (elapsed : Nat → Nat)
    (name : String) (chapters i : Nat) (st : Checkpoint) (c round fuel : Nat) :
    ∀ a ∈ (runChapters warm elapsed name chapters i st c round fuel).1,
      c < a.chapter →
      (⟨i, a.chapter, 0, name⟩ : Attempt) ∈
        (runChapters warm elapsed name chapters i st c round fuel).1 :=
  runChaptersAux_zero_page warm elapsed name chapters i (chapters + 1 - c) st c round fuel

theorem runChapters_finished_state (warm : String → Nat → Nat → Bool) (elapsed : Nat → Nat)
    (name : String) (chapters i : Nat) (st : Checkpoint) (c round fuel : Nat) (st2 : Checkpoint)
    (r2 : Nat) (h : (runChapters warm elapsed name chapters i st c round fuel).2 = .finished st2 r2) :
    st2.mIdx = st.mIdx ∧ st2.cIdx = st.cIdx ∧ (st2.pIdx = 0 ∨ st2 = st) :=
  runChaptersAux_finished_state warm elapsed name chapters i (chapters + 1 - c) st c round fuel
    st2 r2 h

theorem runChapters_rounds (warm : String → Nat → Nat → Bool) (elapsed : Nat → Nat)
    (name : String) (chapters i : Nat) (st : Checkpoint) (c round fuel : Nat)
    (A : List Attempt) (res : ChapRes)
    (h : runChapters warm elapsed name chapters i st c round fuel = (A, res)) :
    ∃ n, A.length = BATCH_SIZE * n ∧
      (∀ st2 r2, res = .finished st2 r2 →
        r2 = round + n ∧ ∀ m, m < n → elapsed (round + m) ≤ SOFT_BUDGET) ∧
      (res = .fuelOut → ∀ m, m < n → elapsed (round + m) ≤ SOFT_BUDGET) ∧
      (∀ cp, res = .halted cp →
        1 ≤ n ∧ SOFT_BUDGET < elapsed (round + n - 1) ∧
        (∀ m, m < n - 1 → elapsed (round + m) ≤ SOFT_BUDGET) ∧
        cp.mIdx = i ∧ cp.cIdx ≤ chapters ∧ c ≤ cp.cIdx ∧
        ∃ pre p0, A = pre ++ batchAttempts name i cp.cIdx p0 ∧
          cp.pIdx = batchAdvance warm name cp.cIdx p0) :=
  runChaptersAux_rounds warm elapsed name chapters i (chapters + 1 - c) st c round fuel A res h

/-- Within one invocation of the manga loop, the first attempt ever made at
any touched manga targets that manga's starting chapter and that chapter's
starting page offset. -/
theorem runMangasAux_firstOfManga (warm : String → Nat → Nat → Bool) (elapsed : Nat → Nat)
    (list : List Manga) :
    ∀ K st i round fuel, st.mIdx ≤ i →
      ∀ a ∈ (runMangasAux warm elapsed list K st i round fuel).1,
        ∃ a1 ∈ (runMangasAux warm elapsed list K st i round fuel).1,
          a1.mIdx = a.mIdx ∧ a1.chapter = mangaStartC st a.mIdx ∧
          a1.page = chapterStart st a.mIdx (mangaStartC st a.mIdx) := by
  intro K
  induction K with
  | zero => intro st i round fuel _ a ha; simp [runMangasAux] at ha
  | succ K ih =>
    intro st i round fuel Hst a ha
    simp only [runMangasAux] at ha ⊢
    by_cases hi : i < list.length
    · rw [dif_pos hi] at ha ⊢
      rcases hp : runChapters warm elapsed (list.get ⟨i, hi⟩).name (list.get ⟨i, hi⟩).chapters
          i st (mangaStartC st i) round fuel with ⟨atts, cres⟩
      rw [hp] at ha
      have hfirst := runChapters_first warm elapsed (list.get ⟨i, hi⟩).name
        (list.get ⟨i, hi⟩).chapters i st (mangaStartC st i) round fuel
      rw [hp] at hfirst
      have hmemA := runChapters_mem warm elapsed (list.get ⟨i, hi⟩).name
        (list.get ⟨i, hi⟩).chapters i st (mangaStartC st i) round fuel
      rw [hp] at hmemA
      cases cres with
      | finished st2 r2 =>
        have hst2 := runChapters_finished_state warm elapsed (list.get ⟨i, hi⟩).name
          (list.get ⟨i, hi⟩).chapters i st (mangaStartC st i) round fuel st2 r2 (by rw [hp])
        simp only at ha ⊢
        rcases List.mem_append.mp ha with hb | hr
        · obtain ⟨h1, _, _, _, _⟩ := hmemA a hb
          refine ⟨⟨i, mangaStartC st i, chapterStart st i (mangaStartC st i),
            (list.get ⟨i, hi⟩).name⟩, List.mem_append_left _ (hfirst a hb), ?_, ?_, ?_⟩
          · simp [h1]
          · simp [h1]
          · simp [h1]
        · have Hst2 : (⟨st2.mIdx, 1, st2.pIdx⟩ : Checkpoint).mIdx ≤ i + 1 := by
            have := hst2.1
            simp only
            omega
          obtain ⟨a1, ha1, he1, he2, he3⟩ := ih ⟨st2.mIdx, 1, st2.pIdx⟩ (i+1) r2 fuel Hst2 a hr
          have hge : i + 1 ≤ a.mIdx :=
            (runMangasAux_mem warm elapsed list K ⟨st2.mIdx, 1, st2.pIdx⟩ (i+1) r2 fuel Hst2 a hr).1
          have hne : a.mIdx ≠ st.mIdx := by omega
          have hne2 : a.mIdx ≠ (⟨st2.mIdx, 1, st2.pIdx⟩ : Checkpoint).mIdx := by
            have := hst2.1
            simp only
            omega
          refine ⟨a1, List.mem_append_right _ ha1, he1, ?_, ?_⟩
          · rw [he2, mangaStartC_of_one rfl, mangaStartC_of_ne hne]
          · rw [he3, mangaStartC_of_one rfl, mangaStartC_of_ne hne,
              chapterStart_of_ne hne2, chapterStart_of_ne hne]
      | halted cp =>
        simp only at ha ⊢
        obtain ⟨h1, _, _, _, _⟩ := hmemA a ha
        refine ⟨⟨i, mangaStartC st i, chapterStart st i (mangaStartC st i),
          (list.get ⟨i, hi⟩).name⟩, hfirst a ha, ?_, ?_, ?_⟩
        · simp [h1]
        · simp [h1]
        · simp [h1]
      | fuelOut =>
        simp only at ha ⊢
        obtain ⟨h1, _, _, _, _⟩ := hmemA a ha
        refine ⟨⟨i, mangaStartC st i, chapterStart st i (mangaStartC st i),
          (list.get ⟨i, hi⟩).name⟩, hfirst a ha, ?_, ?_, ?_⟩
        · simp [h1]
        · simp [h1]
        · simp [h1]
    · rw [dif_neg hi] at ha
      simp at ha

/-- Any attempt above the starting chapter of its manga is accompanied by a
page-0 attempt at the same (manga, chapter). -/
theorem runMangasAux_zero_page (warm : String → Nat → Nat → Bool) (elapsed : Nat → Nat)
    (list : List Manga) :
    ∀ K st i round fuel, st.mIdx ≤ i →
      ∀ a ∈ (runMangasAux warm elapsed list K st i round fuel).1,
        mangaStartC st a.mIdx < a.chapter →
        ∃ a0 ∈ (runMangasAux warm elapsed list K st i round fuel).1,
          a0.mIdx = a.mIdx ∧ a0.chapter = a.chapter ∧ a0.page = 0 := by
  intro K
  induction K with
  | zero => intro st i round fuel _ a ha; simp [runMangasAux] at ha
  | succ K ih =>
    intro st i round fuel Hst a ha hlt
    simp only [runMangasAux] at ha ⊢
    by_cases hi : i < list.length
    · rw [dif_pos hi] at ha ⊢
      rcases hp : runChapters warm elapsed (list.get ⟨i, hi⟩).name (list.get ⟨i, hi⟩).chapters
          i st (mangaStartC st i) round fuel with ⟨atts, cres⟩
      rw [hp] at ha
      have hzp := runChapters_zero_page warm elapsed (list.get ⟨i, hi⟩).name
        (list.get ⟨i, hi⟩).chapters i st (mangaStartC st i) round fuel
      rw [hp] at hzp
      have hmemA := runChapters_mem warm elapsed (list.get ⟨i, hi⟩).name
        (list.get ⟨i, hi⟩).chapters i st (mangaStartC st i) round fuel
      rw [hp] at hmemA
      cases cres with
      | finished st2 r2 =>
        have hst2 := runChapters_finished_state warm elapsed (list.get ⟨i, hi⟩).name
          (list.get ⟨i, hi⟩).chapters i st (mangaStartC st i) round fuel st2 r2 (by rw [hp])
        simp only at ha ⊢
        rcases List.mem_append.mp ha with hb | hr
        · obtain ⟨h1, _, _, _, _⟩ := hmemA a hb
          have hz := hzp a hb (by rw [h1] at hlt; exact hlt)
          exact ⟨⟨i, a.chapter, 0, (list.get ⟨i, hi⟩).name⟩, List.mem_append_left _ hz,
            by simp [h1], rfl, rfl⟩
        · have Hst2 : (⟨st2.mIdx, 1, st2.pIdx⟩ : Checkpoint).mIdx ≤ i + 1 := by
            have := hst2.1
            simp only
            omega
          have hge : i + 1 ≤ a.mIdx :=
            (runMangasAux_mem warm elapsed list K ⟨st2.mIdx, 1, st2.pIdx⟩ (i+1) r2 fuel Hst2 a hr).1
          have hne : a.mIdx ≠ st.mIdx := by omega
          have hlt' : mangaStartC (⟨st2.mIdx, 1, st2.pIdx⟩ : Checkpoint) a.mIdx < a.chapter := by
            rw [mangaStartC_of_one rfl]
            rw [mangaStartC_of_ne hne] at hlt
            exact hlt
          obtain ⟨a0, ha0, he1, he2, he3⟩ := ih ⟨st2.mIdx, 1, st2.pIdx⟩ (i+1) r2 fuel Hst2 a hr hlt'
          exact ⟨a0, List.mem_append_right _ ha0, he1, he2, he3⟩
      | halted cp =>
        simp only at ha ⊢
        obtain ⟨h1, _, _, _, _⟩ := hmemA a ha
        have hz := hzp a ha (by rw [h1] at hlt; exact hlt)
        exact ⟨⟨i, a.chapter, 0, (list.get ⟨i, hi⟩).name⟩, hz, by simp [h1], rfl, rfl⟩
      | fuelOut =>
        simp only at ha ⊢
        obtain ⟨h1, _, _, _, _⟩ := hmemA a ha
        have hz := hzp a ha (by rw [h1] at hlt; exact hlt)
        exact ⟨⟨i, a.chapter, 0, (list.get ⟨i, hi⟩).name⟩, hz, by simp [h1], rfl, rfl⟩
    · rw [dif_neg hi] at ha
      simp at ha

/-- Round accounting for the manga loop. -/
theorem runMangasAux_rounds (warm : String → Nat → Nat → Bool) (elapsed : Nat → Nat)
    (list : List Manga) :
    ∀ K st i round fuel A res,
      runMangasAux warm elapsed list K st i round fuel = (A, res) →
      ∃ n, A.length = BATCH_SIZE * n ∧
        (res = .completed → ∀ m, m < n → elapsed (round + m) ≤ SOFT_BUDGET) ∧
        (res = .fuelOut → ∀ m, m < n → elapsed (round + m) ≤ SOFT_BUDGET) ∧
        (∀ cp, res = .halted cp →
          1 ≤ n ∧ SOFT_BUDGET < elapsed (round + n - 1) ∧
          (∀ m, m < n - 1 → elapsed (round + m) ≤ SOFT_BUDGET) ∧
          ∃ hm : cp.mIdx < list.length,
            cp.cIdx ≤ (list.get ⟨cp.mIdx, hm⟩).chapters ∧
            ∃ pre p0, A = pre ++ batchAttempts (list.get ⟨cp.mIdx, hm⟩).name cp.mIdx cp.cIdx p0 ∧
              cp.pIdx = batchAdvance warm (list.get ⟨cp.mIdx, hm⟩).name cp.cIdx p0) := by
  intro K
  induction K with
  | zero =>
    intro st i round fuel A res h
    simp only [runMangasAux] at h
    injection h with h1 h2
    subst h1
    subst h2
    refine ⟨0, by simp, ?_, ?_, ?_⟩
    · intro _ m hm; exact absurd hm (by omega)
    · intro hx; cases hx
    · intro cp hx; cases hx
  | succ K ih =>
    intro st i round fuel A res h
    simp only [runMangasAux] at h
    by_cases hi : i < list.length
    · rw [dif_pos hi] at h
      rcases hp : runChapters warm elapsed (list.get ⟨i, hi⟩).name (list.get ⟨i, hi⟩).chapters
          i st (mangaStartC st i) round fuel with ⟨atts, cres⟩
      rw [hp] at h
      obtain ⟨n1, hlen1, hfin1, hfo1, hhalt1⟩ := runChapters_rounds warm elapsed
        (list.get ⟨i, hi⟩).name (list.get ⟨i, hi⟩).chapters i st (mangaStartC st i) round fuel
        atts cres hp
      cases cres with
      | finished st2 r2 =>
        simp only at h
        injection h with hA hres
        subst hA
        subst hres
        obtain ⟨hr2, hok1⟩ := hfin1 st2 r2 rfl
        subst hr2
        obtain ⟨n2, hlen2, hcomp2, hfo2, hhalt2⟩ := ih ⟨st2.mIdx, 1, st2.pIdx⟩ (i+1)
          (round + n1) fuel
          (runMangasAux warm elapsed list K ⟨st2.mIdx, 1, st2.pIdx⟩ (i+1) (round + n1) fuel).1
          (runMangasAux warm elapsed list K ⟨st2.mIdx, 1, st2.pIdx⟩ (i+1) (round + n1) fuel).2 rfl
        refine ⟨n1 + n2, ?_, ?_, ?_, ?_⟩
        · simp [hlen1, hlen2, Nat.mul_add]
        · intro hres
          exact allOk_append hok1 (hcomp2 hres)
        · intro hres
          exact allOk_append hok1 (hfo2 hres)
        · intro cp hres
          obtain ⟨hn2, hlate, hok2, hm, hcc, pre, p0, hA, hpi⟩ := hhalt2 cp hres
          refine ⟨by omega, ?_, ?_, hm, hcc, atts ++ pre, p0, ?_, hpi⟩
          · have heq : round + (n1 + n2) - 1 = round + n1 + n2 - 1 := by omega
            rw [heq]
            exact hlate
          · have hx := allOk_append hok1 (a := n1) (b := n2 - 1) (fun m hm2 => hok2 m hm2)
            intro m hm2
            exact hx m (by omega)
          · rw [hA, List.append_assoc]
      | halted cp =>
        simp only at h
        injection h with hA hres
        subst hA
        subst hres
        obtain ⟨hn1, hlate, hok, hmi, hci, _, pre, p0, hA, hpi⟩ := hhalt1 cp rfl
        refine ⟨n1, hlen1, ?_, ?_, ?_⟩
        · intro hx; cases hx
        · intro hx; cases hx
        · intro cp2 hx
          injection hx with hcp2
          subst hcp2
          refine ⟨hn1, hlate, hok, by rw [hmi]; exact hi, ?_, pre, p0, ?_, ?_⟩
          · rw [show (⟨cp.mIdx, by rw [hmi]; exact hi⟩ : Fin list.length) = ⟨i, hi⟩ from by
              simp [hmi]]
            exact hci
          · rw [show (⟨cp.mIdx, by rw [hmi]; exact hi⟩ : Fin list.length) = ⟨i, hi⟩ from by
              simp [hmi]]
            rw [hA, hmi]
          · rw [show (⟨cp.mIdx, by rw [hmi]; exact hi⟩ : Fin list.length) = ⟨i, hi⟩ from by
              simp [hmi]]
            exact hpi
      | fuelOut =>
        simp only at h
        injection h with hA hres
        subst hA
        subst hres
        refine ⟨n1, hlen1, ?_, ?_, ?_⟩
        · intro hx; cases hx
        · intro hx; exact hfo1 rfl
        · intro cp hx; cases hx
    · rw [dif_neg hi] at h
      injection h with h1 h2
      subst h1
      subst h2
      refine ⟨0, by simp, ?_, ?_, ?_⟩
      · intro _ m hm; exact absurd hm (by omega)
      · intro hx; cases hx
      · intro cp hx; cases hx

theorem head?_append_left {α : Type} {l : List α} {a : α} (h : l.head? = some a)
    (l' : List α) : (l ++ l').head? = some a := by
  cases l with
  | nil => simp at h
  | cons x t => simpa using h

theorem runChaptersAux_head (warm : String → Nat → Nat → Bool) (elapsed : Nat → Nat)
    (name : String) (chapters i K : Nat) (st : Checkpoint) (c round F : Nat)
    (hc : c ≤ chapters) :
    (runChaptersAux warm elapsed name chapters i (K + 1) st c round (F + 1)).1.head? =
      some ⟨i, c, chapterStart st i c, name⟩ := by
  simp only [runChaptersAux]
  rw [if_pos hc]
  rcases hp : runPages warm elapsed name i c (F + 1) (chapterStart st i c) round with ⟨atts, pres⟩
  obtain ⟨A2, hA2⟩ := runPages_succ_shape warm elapsed name i c F (chapterStart st i c) round
  rw [hp] at hA2
  simp only at hA2
  have hhead : atts.head? = some ⟨i, c, chapterStart st i c, name⟩ := by
    rw [hA2]
    exact head?_append_left (batchAttempts_head name i c (chapterStart st i c)) A2
  cases pres with
  | finished fp r2 =>
    simp only
    exact head?_append_left hhead _
  | halted cp => simpa using hhead
  | fuelOut => simpa using hhead

/-- The first warm-up attempt of an invocation that begins inside the catalog
targets exactly the resumed coordinate. -/
theorem runMangas_head (warm : String → Nat → Nat → Bool) (elapsed : Nat → Nat)
    (list : List Manga) (st : Checkpoint) (F : Nat) (hm : st.mIdx < list.length)
    (hc : st.cIdx ≤ (list.get ⟨st.mIdx, hm⟩).chapters) :
    (runMangas warm elapsed list st st.mIdx 0 (F + 1)).1.head? =
      some ⟨st.mIdx, st.cIdx, st.pIdx, (list.get ⟨st.mIdx, hm⟩).name⟩ := by
  obtain ⟨K, hK⟩ : ∃ K, list.length - st.mIdx = K + 1 :=
    ⟨list.length - st.mIdx - 1, by omega⟩
  unfold runMangas
  rw [hK]
  simp only [runMangasAux]
  rw [dif_pos hm]
  have hms : mangaStartC st st.mIdx = st.cIdx := by simp [mangaStartC]
  have hcs : chapterStart st st.mIdx st.cIdx = st.pIdx := by simp [chapterStart]
  obtain ⟨K2, hK2⟩ : ∃ K2, (list.get ⟨st.mIdx, hm⟩).chapters + 1 - st.cIdx = K2 + 1 :=
    ⟨(list.get ⟨st.mIdx, hm⟩).chapters - st.cIdx, by omega⟩
  have hchead : (runChapters warm elapsed (list.get ⟨st.mIdx, hm⟩).name
      (list.get ⟨st.mIdx, hm⟩).chapters st.mIdx st (mangaStartC st st.mIdx) 0 (F + 1)).1.head? =
      some ⟨st.mIdx, st.cIdx, st.pIdx, (list.get ⟨st.mIdx, hm⟩).name⟩ := by
    unfold runChapters
    rw [hms, hK2]
    rw [runChaptersAux_head warm elapsed (list.get ⟨st.mIdx, hm⟩).name
      (list.get ⟨st.mIdx, hm⟩).chapters st.mIdx K2 st st.cIdx 0 F hc, hcs]
  rcases hcres : runChapters warm elapsed (list.get ⟨st.mIdx, hm⟩).name
      (list.get ⟨st.mIdx, hm⟩).chapters st.mIdx st (mangaStartC st st.mIdx) 0 (F + 1)
    with ⟨atts, cres⟩
  rw [hcres] at hchead
  simp only at hchead
  cases cres with
  | finished st2 r2 =>
    simp only
    exact head?_append_left hchead _
  | halted cp => simpa using hchead
  | fuelOut => simpa using hchead

/-! ## Wrappers restating the manga-loop lemmas for `runMangas` -/

theorem runMangas_mem (warm : String → Nat → Nat → Bool) (elapsed : Nat → Nat)
    (list : List Manga) (st : Checkpoint) (i round fuel : Nat) (Hst : st.mIdx ≤ i) :
    ∀ a ∈ (runMangas warm elapsed list st i round fuel).1,
      i ≤ a.mIdx ∧ a.mIdx < list.length ∧
      mangaStartC st a.mIdx ≤ a.chapter ∧
      (∀ hm : a.mIdx < list.length,
        a.name = (list.get ⟨a.mIdx, hm⟩).name ∧
        a.chapter ≤ (list.get ⟨a.mIdx, hm⟩).chapters) ∧
      (a.mIdx = i → a.chapter = mangaStartC st i → chapterStart st i a.chapter ≤ a.page) :=
  runMangasAux_mem warm elapsed list (list.length - i) st i round fuel Hst

theorem runMangas_firstOfManga (warm : String → Nat → Nat → Bool) (elapsed : Nat → Nat)
    (list : List Manga) (st : Checkpoint) (i round fuel : Nat) (Hst : st.mIdx ≤ i) :
    ∀ a ∈ (runMangas warm elapsed list st i round fuel).1,
      ∃ a1 ∈ (runMangas warm elapsed list st i round fuel).1,
        a1.mIdx = a.mIdx ∧ a1.chapter = mangaStartC st a.mIdx ∧
        a1.page = chapterStart st a.mIdx (mangaStartC st a.mIdx) :=
  runMangasAux_firstOfManga warm elapsed list (list.length - i) st i round fuel Hst

theorem runMangas_zero_page (warm : String → Nat → Nat → Bool) (elapsed : Nat → Nat)
    (list : List Manga) (st : Checkpoint) (i round fuel : Nat) (Hst : st.mIdx ≤ i) :
    ∀ a ∈ (runMangas warm elapsed list st i round fuel).1,
      mangaStartC st a.mIdx < a.chapter →
      ∃ a0 ∈ (runMangas warm elapsed list st i round fuel).1,
        a0.mIdx = a.mIdx ∧ a0.chapter = a.chapter ∧ a0.page = 0 :=
  runMangasAux_zero_page warm elapsed list (list.length - i) st i round fuel Hst

theorem runMangas_rounds (warm : String → Nat → Nat → Bool) (elapsed : Nat → Nat)
    (list : List Manga) (st : Checkpoint) (i round fuel : Nat) (A : List Attempt) (res : RunRes)
    (h : runMangas warm elapsed list st i round fuel = (A, res)) :
    ∃ n, A.length = BATCH_SIZE * n ∧
      (res = .completed → ∀ m, m < n → elapsed (round + m) ≤ SOFT_BUDGET) ∧
      (res = .fuelOut → ∀ m, m < n → elapsed (round + m) ≤ SOFT_BUDGET) ∧
      (∀ cp, res = .halted cp →
        1 ≤ n ∧ SOFT_BUDGET < elapsed (round + n - 1) ∧
        (∀ m, m < n - 1 → elapsed (round + m) ≤ SOFT_BUDGET) ∧
        ∃ hm : cp.mIdx < list.length,
          cp.cIdx ≤ (list.get ⟨cp.mIdx, hm⟩).chapters ∧
          ∃ pre p0, A = pre ++ batchAttempts (list.get ⟨cp.mIdx, hm⟩).name cp.mIdx cp.cIdx p0 ∧
            cp.pIdx = batchAdvance warm (list.get ⟨cp.mIdx, hm⟩).name cp.cIdx p0) :=
  runMangasAux_rounds warm elapsed list (list.length - i) st i round fuel A res h

theorem runSmartCacher_attempts (list : List Manga) (st : Checkpoint)
    (origin : String → Option Nat) (elapsed : Nat → Nat) (fuel : Nat) :
    (runSmartCacher (.ok list) st origin elapsed fuel).attempts =
      (runMangas (fun nm c p => warmUpPage origin nm c p) elapsed list st st.mIdx 0 fuel).1 := by
  simp only [runSmartCacher]
  rcases h : runMangas (fun nm c p => warmUpPage origin nm c p) elapsed list st st.mIdx 0 fuel
    with ⟨atts, res⟩
  cases res <;> rfl

theorem runSmartCacher_of_halted (list : List Manga) (st : Checkpoint)
    (origin : String → Option Nat) (elapsed : Nat → Nat) (fuel : Nat)
    (A : List Attempt) (cp : Checkpoint)
    (h : runMangas (fun nm c p => warmUpPage origin nm c p) elapsed list st st.mIdx 0 fuel
      = (A, .halted cp)) :
    runSmartCacher (.ok list) st origin elapsed fuel = ⟨A, [encodeState cp]⟩ := by
  simp only [runSmartCacher]
  rw [h]

theorem runSmartCacher_of_completed (list : List Manga) (st : Checkpoint)
    (origin : String → Option Nat) (elapsed : Nat → Nat) (fuel : Nat)
    (A : List Attempt)
    (h : runMangas (fun nm c p => warmUpPage origin nm c p) elapsed list st st.mIdx 0 fuel
      = (A, .completed)) :
    runSmartCacher (.ok list) st origin elapsed fuel = ⟨A, [encodeState ⟨0, 1, 0⟩]⟩ := by
  simp only [runSmartCacher]
  rw [h]

/-- Claim C1: resume correctness of the traversal engine.  For every catalog
list and starting checkpoint `{mIdx, cIdx, pIdx}` (valid for the catalog, and
given at least one round of fuel), `runSmartCacher` begins warming at manga
`mIdx`, chapter `cIdx`, page `pIdx` (the head of the attempt trace); within
the resumed manga it never enters a chapter below `cIdx` and never
re-attempts a page below `pIdx` of chapter `cIdx`; every manga after `mIdx`
starts its chapter counter at 1 (a chapter-1/page-0 attempt accompanies any
of its attempts); and every (manga, chapter) pair other than the exact
resumed pair starts its page offset at 0. -/
theorem claim_C1 (list : List Manga) (st : Checkpoint) (origin : String → Option Nat)
    (elapsed : Nat → Nat) (fuel : Nat) (A : List Attempt)
    (hA : A = (runSmartCacher (.ok list) st origin elapsed fuel).attempts)
    (hm : st.mIdx < list.length)
    (hc : st.cIdx ≤ (list.get ⟨st.mIdx, hm⟩).chapters)
    (hf : 1 ≤ fuel) :
    A.head? = some ⟨st.mIdx, st.cIdx, st.pIdx, (list.get ⟨st.mIdx, hm⟩).name⟩ ∧
    (∀ a ∈ A, a.mIdx = st.mIdx → st.cIdx ≤ a.chapter) ∧
    (∀ a ∈ A, a.mIdx = st.mIdx → a.chapter = st.cIdx → st.pIdx ≤ a.page) ∧
    (∀ a ∈ A, a.mIdx ≠ st.mIdx →
      ∃ a1 ∈ A, a1.mIdx = a.mIdx ∧ a1.chapter = 1 ∧ a1.page = 0) ∧
    (∀ a ∈ A, ¬(a.mIdx = st.mIdx ∧ a.chapter = st.cIdx) →
      ∃ a0 ∈ A, a0.mIdx = a.mIdx ∧ a0.chapter = a.chapter ∧ a0.page = 0) := by
  subst hA
  rw [runSmartCacher_attempts]
  have hms : mangaStartC st st.mIdx = st.cIdx := by simp [mangaStartC]
  have hcs : chapterStart st st.mIdx st.cIdx = st.pIdx := by simp [chapterStart]
  have Hst : st.mIdx ≤ st.mIdx := le_refl _
  refine ⟨?_, ?_, ?_, ?_, ?_⟩
  · obtain ⟨F, rfl⟩ : ∃ F, fuel = F + 1 := ⟨fuel - 1, by omega⟩
    exact runMangas_head (fun nm c p => warmUpPage origin nm c p) elapsed list st F hm hc
  · intro a ha hami
    obtain ⟨_, _, h3, _, _⟩ := runMangas_mem (fun nm c p => warmUpPage origin nm c p)
      elapsed list st st.mIdx 0 fuel Hst a ha
    rw [hami, hms] at h3
    exact h3
  · intro a ha hami hac
    obtain ⟨_, _, _, _, h5⟩ := runMangas_mem (fun nm c p => warmUpPage origin nm c p)
      elapsed list st st.mIdx 0 fuel Hst a ha
    have := h5 hami (by rw [hac, hms])
    rw [hac, hcs] at this
    exact this
  · intro a ha hne
    obtain ⟨a1, ha1, he1, he2, he3⟩ := runMangas_firstOfManga
      (fun nm c p => warmUpPage origin nm c p) elapsed list st st.mIdx 0 fuel Hst a ha
    refine ⟨a1, ha1, he1, ?_, ?_⟩
    · rw [he2, mangaStartC_of_ne hne]
    · rw [he3, mangaStartC_of_ne hne, chapterStart_of_ne hne]
  · intro a ha hne
    obtain ⟨h1, h2, h3, h4, h5⟩ := runMangas_mem (fun nm c p => warmUpPage origin nm c p)
      elapsed list st st.mIdx 0 fuel Hst a ha
    by_cases hami : a.mIdx = st.mIdx
    · have hac : a.chapter ≠ st.cIdx := fun hx => hne ⟨hami, hx⟩
      have hlt : mangaStartC st a.mIdx < a.chapter := by
        rw [hami, hms]
        rw [hami, hms] at h3
        omega
      exact runMangas_zero_page (fun nm c p => warmUpPage origin nm c p) elapsed list st
        st.mIdx 0 fuel Hst a ha hlt
    · rcases Nat.lt_or_ge 1 a.chapter with hgt | hle
      · have hlt : mangaStartC st a.mIdx < a.chapter := by
          rw [mangaStartC_of_ne hami]
          exact hgt
        exact runMangas_zero_page (fun nm c p => warmUpPage origin nm c p) elapsed list st
          st.mIdx 0 fuel Hst a ha hlt
      · have hch1 : a.chapter = 1 := by
          rw [mangaStartC_of_ne hami] at h3
          omega
        obtain ⟨a1, ha1, he1, he2, he3⟩ := runMangas_firstOfManga
          (fun nm c p => warmUpPage origin nm c p) elapsed list st st.mIdx 0 fuel Hst a ha
        refine ⟨a1, ha1, he1, ?_, ?_⟩
        · rw [he2, mangaStartC_of_ne hami, hch1]
        · rw [he3, mangaStartC_of_ne hami, chapterStart_of_ne hami]

/-- Concrete instance of C1 matching the spec example: catalog
`[{name:"A", chapters:2}]`, checkpoint `{0, 2, 3}`. -/
theorem claim_C1_witness :
    ([⟨0, 2, 3, "A"⟩, ⟨0, 2, 4, "A"⟩, ⟨0, 2, 5, "A"⟩, ⟨0, 2, 6, "A"⟩, ⟨0, 2, 7, "A"⟩]
        : List Attempt).head? = some ⟨0, 2, 3, "A"⟩ ∧
    (∀ a ∈ ([⟨0, 2, 3, "A"⟩, ⟨0, 2, 4, "A"⟩, ⟨0, 2, 5, "A"⟩, ⟨0, 2, 6, "A"⟩, ⟨0, 2, 7, "A"⟩]
        : List Attempt), a.mIdx = 0 → 2 ≤ a.chapter) ∧
    (∀ a ∈ ([⟨0, 2, 3, "A"⟩, ⟨0, 2, 4, "A"⟩, ⟨0, 2, 5, "A"⟩, ⟨0, 2, 6, "A"⟩, ⟨0, 2, 7, "A"⟩]
        : List Attempt), a.mIdx = 0 → a.chapter = 2 → 3 ≤ a.page) ∧
    (∀ a ∈ ([⟨0, 2, 3, "A"⟩, ⟨0, 2, 4, "A"⟩, ⟨0, 2, 5, "A"⟩, ⟨0, 2, 6, "A"⟩, ⟨0, 2, 7, "A"⟩]
        : List Attempt), a.mIdx ≠ 0 →
      ∃ a1 ∈ ([⟨0, 2, 3, "A"⟩, ⟨0, 2, 4, "A"⟩, ⟨0, 2, 5, "A"⟩, ⟨0, 2, 6, "A"⟩, ⟨0, 2, 7, "A"⟩]
        : List Attempt), a1.mIdx = a.mIdx ∧ a1.chapter = 1 ∧ a1.page = 0) ∧
    (∀ a ∈ ([⟨0, 2, 3, "A"⟩, ⟨0, 2, 4, "A"⟩, ⟨0, 2, 5, "A"⟩, ⟨0, 2, 6, "A"⟩, ⟨0, 2, 7, "A"⟩]
        : List Attempt), ¬(a.mIdx = 0 ∧ a.chapter = 2) →
      ∃ a0 ∈ ([⟨0, 2, 3, "A"⟩, ⟨0, 2, 4, "A"⟩, ⟨0, 2, 5, "A"⟩, ⟨0, 2, 6, "A"⟩, ⟨0, 2, 7, "A"⟩]
        : List Attempt), a0.mIdx = a.mIdx ∧ a0.chapter = a.chapter ∧ a0.page = 0) := by
  have h := claim_C1 [⟨"A", 2⟩] ⟨0, 2, 3⟩ (fun _ => some 404) (fun _ => 0) 1
    [⟨0, 2, 3, "A"⟩, ⟨0, 2, 4, "A"⟩, ⟨0, 2, 5, "A"⟩, ⟨0, 2, 6, "A"⟩, ⟨0, 2, 7, "A"⟩]
    (by decide) (by decide) (by decide) (by decide)
  exact h

/-- Claim C2: batch reduction.  Each batch round starting at offset `p`
issues exactly `BATCH_SIZE` concurrent warm-ups for the consecutive pages
`p .. p+BATCH_SIZE-1`; if all succeed, the offset advances to
`p + BATCH_SIZE` and the same chapter continues with the next round;
otherwise, with `k` the lowest failed relative index (a genuine first
failure: page `p+k` failed and all pages before it succeeded), the offset
becomes `p + k`, the chapter is treated as ended, and the next chapter
begins with page offset 0 (the engine recurses on a state whose `pIdx` has
been reset to 0, and any such state yields start offset 0). -/
theorem claim_C2 (warm : String → Nat → Nat → Bool) (elapsed : Nat → Nat) (name : String)
    (i c p round fuel : Nat) (hb : elapsed round ≤ SOFT_BUDGET) :
    ((batchAttempts name i c p).length = BATCH_SIZE ∧
      ∀ b, b < BATCH_SIZE → (batchAttempts name i c p).get? b = some ⟨i, c, p + b, name⟩) ∧
    (failIdx warm name c p = none →
      batchAdvance warm name c p = p + BATCH_SIZE ∧
      runPages warm elapsed name i c (fuel + 1) p round =
        (batchAttempts name i c p ++
          (runPages warm elapsed name i c fuel (p + BATCH_SIZE) (round + 1)).1,
         (runPages warm elapsed name i c fuel (p + BATCH_SIZE) (round + 1)).2)) ∧
    (∀ k, failIdx warm name c p = some k →
      (k < BATCH_SIZE ∧ warm name c (p + k) = false ∧ ∀ b, b < k → warm name c (p + b) = true) ∧
      batchAdvance warm name c p = p + k ∧
      runPages warm elapsed name i c (fuel + 1) p round =
        (batchAttempts name i c p, .finished (p + k) (round + 1))) ∧
    (∀ st : Checkpoint, st.pIdx = 0 → chapterStart st i (c + 1) = 0) := by
  refine ⟨⟨batchAttempts_length name i c p, ?_⟩, ?_, ?_, ?_⟩
  · intro b hbb
    simp only [batchAttempts, List.get?_eq_getElem?, List.getElem?_map]
    simp [hbb]
  · intro hnone
    refine ⟨batchAdvance_of_none hnone, ?_⟩
    simp only [runPages]
    rw [if_neg (by omega), if_neg (by simp [hnone]), batchAdvance_of_none hnone]
  · intro k hsome
    refine ⟨failIdx_some hsome, batchAdvance_of_some hsome, ?_⟩
    simp only [runPages]
    rw [if_neg (by omega), if_pos (by simp [hsome]), batchAdvance_of_some hsome]
  · intro st hst
    exact chapterStart_zero hst i (c + 1)

/-- Concrete instance of C2 matching the spec example: batch of 5 pages
`[0..4]` where page 2 fails and the others succeed. -/
theorem claim_C2_witness :
    ((batchAttempts "A" 0 1 0).length = BATCH_SIZE ∧
      ∀ b, b < BATCH_SIZE →
        (batchAttempts "A" 0 1 0).get? b = some ⟨0, 1, 0 + b, "A"⟩) ∧
    (failIdx (fun _ _ q => !(q == 2)) "A" 1 0 = none →
      batchAdvance (fun _ _ q => !(q == 2)) "A" 1 0 = 0 + BATCH_SIZE ∧
      runPages (fun _ _ q => !(q == 2)) (fun _ => 0) "A" 0 1 (0 + 1) 0 0 =
        (batchAttempts "A" 0 1 0 ++
          (runPages (fun _ _ q => !(q == 2)) (fun _ => 0) "A" 0 1 0 (0 + BATCH_SIZE) (0 + 1)).1,
         (runPages (fun _ _ q => !(q == 2)) (fun _ => 0) "A" 0 1 0 (0 + BATCH_SIZE) (0 + 1)).2)) ∧
    (∀ k, failIdx (fun _ _ q => !(q == 2)) "A" 1 0 = some k →
      (k < BATCH_SIZE ∧ (fun (_ : String) (_ q : Nat) => !(q == 2)) "A" 1 (0 + k) = false ∧
        ∀ b, b < k → (fun (_ : String) (_ q : Nat) => !(q == 2)) "A" 1 (0 + b) = true) ∧
      batchAdvance (fun _ _ q => !(q == 2)) "A" 1 0 = 0 + k ∧
      runPages (fun _ _ q => !(q == 2)) (fun _ => 0) "A" 0 1 (0 + 1) 0 0 =
        (batchAttempts "A" 0 1 0, .finished (0 + k) (0 + 1))) ∧
    (∀ st : Checkpoint, st.pIdx = 0 → chapterStart st 0 (1 + 1) = 0) :=
  claim_C2 (fun _ _ q => !(q == 2)) (fun _ => 0) "A" 0 1 0 0 0 (by decide)

/-- Claim C3: time-budget halt.  The governor is consulted after every batch
round (the attempt trace is exactly `BATCH_SIZE` attempts per consulted
round); when an invocation halts, the halt happens at the first round whose
elapsed time exceeds the 24-second budget (every earlier consultation was
within budget), the engine persists exactly the current triple — whose
`pIdx` is the offset reached after the last completed round, i.e. the
batch-reduction advance of that round's start offset, never a mid-round
value — and returns with no further attempts: the trace ends with that
round's batch. -/
theorem claim_C3 (list : List Manga) (st : Checkpoint) (origin : String → Option Nat)
    (elapsed : Nat → Nat) (fuel : Nat) (A : List Attempt) (cp : Checkpoint)
    (h : runMangas (fun nm c p => warmUpPage origin nm c p) elapsed list st st.mIdx 0 fuel
      = (A, .halted cp)) :
    runSmartCacher (.ok list) st origin elapsed fuel = ⟨A, [encodeState cp]⟩ ∧
    (∃ n, A.length = BATCH_SIZE * n ∧ 1 ≤ n ∧
      SOFT_BUDGET < elapsed (n - 1) ∧
      ∀ m, m < n - 1 → elapsed m ≤ SOFT_BUDGET) ∧
    (∃ hm : cp.mIdx < list.length,
      ∃ pre p0, A = pre ++ batchAttempts (list.get ⟨cp.mIdx, hm⟩).name cp.mIdx cp.cIdx p0 ∧
        cp.pIdx = batchAdvance (fun nm c p => warmUpPage origin nm c p)
          (list.get ⟨cp.mIdx, hm⟩).name cp.cIdx p0) := by
  obtain ⟨n, hlen, _, _, hhalt⟩ := runMangas_rounds (fun nm c p => warmUpPage origin nm c p)
    elapsed list st st.mIdx 0 fuel A (.halted cp) h
  obtain ⟨hn1, hlate, hok, hm, _, pre, p0, hA, hpi⟩ := hhalt cp rfl
  refine ⟨runSmartCacher_of_halted list st origin elapsed fuel A cp h, ⟨n, hlen, hn1, ?_, ?_⟩,
    hm, pre, p0, hA, hpi⟩
  · simpa using hlate
  · intro m hm2
    simpa using hok m hm2

/-- Concrete instance of C3: a single-manga catalog with the clock already
past the budget; the engine halts after the first round and persists
`{0, 1, 0}` (that round's advance from offset 0, whose first page failed). -/
theorem claim_C3_witness :
    (runSmartCacher (.ok [⟨"A", 1⟩]) ⟨0, 1, 0⟩ (fun _ => some 404) (fun _ => 25000) 1 =
      ⟨[⟨0, 1, 0, "A"⟩, ⟨0, 1, 1, "A"⟩, ⟨0, 1, 2, "A"⟩, ⟨0, 1, 3, "A"⟩, ⟨0, 1, 4, "A"⟩],
       [encodeState ⟨0, 1, 0⟩]⟩) ∧
    (∃ n, ([⟨0, 1, 0, "A"⟩, ⟨0, 1, 1, "A"⟩, ⟨0, 1, 2, "A"⟩, ⟨0, 1, 3, "A"⟩, ⟨0, 1, 4, "A"⟩]
        : List Attempt).length = BATCH_SIZE * n ∧ 1 ≤ n ∧
      SOFT_BUDGET < (fun (_ : Nat) => 25000) (n - 1) ∧
      ∀ m, m < n - 1 → (fun (_ : Nat) => 25000) m ≤ SOFT_BUDGET) ∧
    (∃ hm : (⟨0, 1, 0⟩ : Checkpoint).mIdx < ([⟨"A", 1⟩] : List Manga).length,
      ∃ pre p0,
        ([⟨0, 1, 0, "A"⟩, ⟨0, 1, 1, "A"⟩, ⟨0, 1, 2, "A"⟩, ⟨0, 1, 3, "A"⟩, ⟨0, 1, 4, "A"⟩]
          : List Attempt) = pre ++ batchAttempts
            (([⟨"A", 1⟩] : List Manga).get ⟨(⟨0, 1, 0⟩ : Checkpoint).mIdx, hm⟩).name
            (⟨0, 1, 0⟩ : Checkpoint).mIdx (⟨0, 1, 0⟩ : Checkpoint).cIdx p0 ∧
        (⟨0, 1, 0⟩ : Checkpoint).pIdx = batchAdvance
          (fun nm c p => warmUpPage (fun _ => some 404) nm c p)
          (([⟨"A", 1⟩] : List Manga).get ⟨(⟨0, 1, 0⟩ : Checkpoint).mIdx, hm⟩).name
          (⟨0, 1, 0⟩ : Checkpoint).cIdx p0) :=
  claim_C3 [⟨"A", 1⟩] ⟨0, 1, 0⟩ (fun _ => some 404) (fun _ => 25000) 1
    [⟨0, 1, 0, "A"⟩, ⟨0, 1, 1, "A"⟩, ⟨0, 1, 2, "A"⟩, ⟨0, 1, 3, "A"⟩, ⟨0, 1, 4, "A"⟩]
    ⟨0, 1, 0⟩ (by decide)

/-- Claim C6: catalog-unavailable atomicity.  Whenever the catalog fetch
fails (network error or timeout), returns a non-success status, or yields a
payload that is not a JSON array, the invocation performs no page warm-ups
and writes nothing to the checkpoint store, leaving the previously
persisted checkpoint untouched. -/
theorem claim_C6 (st : Checkpoint) (origin : String → Option Nat) (elapsed : Nat → Nat)
    (fuel : Nat) :
    runSmartCacher .netError st origin elapsed fuel = ⟨[], []⟩ ∧
    runSmartCacher .httpError st origin elapsed fuel = ⟨[], []⟩ ∧
    runSmartCacher .badJson st origin elapsed fuel = ⟨[], []⟩ :=
  ⟨rfl, rfl, rfl⟩

/-! ## Termination of the traversal under failing pages (for C7) -/

theorem runPages_finishes (warm : String → Nat → Nat → Bool) (elapsed : Nat → Nat)
    (name : String) (i c : Nat) (hb : ∀ r, elapsed r ≤ SOFT_BUDGET) :
    ∀ F p round,
      (∃ j, j < F ∧ ∃ b, b < BATCH_SIZE ∧ warm name c (p + BATCH_SIZE * j + b) = false) →
      ∃ A fp r2, runPages warm elapsed name i c F p round = (A, .finished fp r2) := by
  intro F
  induction F with
  | zero =>
    intro p round ⟨j, hj, _⟩
    exact absurd hj (by omega)
  | succ F ih =>
    intro p round hex
    have hnb : ¬ SOFT_BUDGET < elapsed round := not_lt_of_le (hb round)
    cases hfi : failIdx warm name c p with
    | some k =>
      refine ⟨batchAttempts name i c p, batchAdvance warm name c p, round + 1, ?_⟩
      simp only [runPages]
      rw [if_neg hnb, if_pos (by simp [hfi])]
    | none =>
      have hall := failIdx_none hfi
      obtain ⟨j, hj, b, hbb, hfail⟩ := hex
      cases j with
      | zero =>
        have : warm name c (p + b) = true := hall b hbb
        rw [show p + BATCH_SIZE * 0 + b = p + b from by ring] at hfail
        rw [this] at hfail
        cases hfail
      | succ j =>
        have hstep : p + BATCH_SIZE * (j + 1) + b = (p + BATCH_SIZE) + BATCH_SIZE * j + b := by
          ring
        rw [hstep] at hfail
        obtain ⟨A2, fp, r2, hrec⟩ := ih (p + BATCH_SIZE) (round + 1) ⟨j, by omega, b, hbb, hfail⟩
        refine ⟨batchAttempts name i c p ++ A2, fp, r2, ?_⟩
        simp only [runPages]
        rw [if_neg hnb, if_neg (by simp [hfi]), batchAdvance_of_none hfi, hrec]

theorem runChaptersAux_finishes (warm : String → Nat → Nat → Bool) (elapsed : Nat → Nat)
    (name : String) (chapters i fuel : Nat) (hb : ∀ r, elapsed r ≤ SOFT_BUDGET)
    (hw : ∀ c p0, ∃ j, j < fuel ∧ ∃ b, b < BATCH_SIZE ∧
      warm name c (p0 + BATCH_SIZE * j + b) = false) :
    ∀ K st c round, ∃ A st2 r2,
      runChaptersAux warm elapsed name chapters i K st c round fuel = (A, .finished st2 r2) := by
  intro K
  induction K with
  | zero => intro st c round; exact ⟨[], st, round, rfl⟩
  | succ K ih =>
    intro st c round
    by_cases hc : c ≤ chapters
    · obtain ⟨A1, fp, r2, hp⟩ := runPages_finishes warm elapsed name i c hb fuel
        (chapterStart st i c) round (hw c (chapterStart st i c))
      obtain ⟨A2, st2, r3, hrec⟩ := ih ⟨st.mIdx, st.cIdx, 0⟩ (c + 1) r2
      refine ⟨A1 ++ A2, st2, r3, ?_⟩
      simp only [runChaptersAux]
      rw [if_pos hc, hp]
      simp only [hrec]
    · refine ⟨[], st, round, ?_⟩
      simp only [runChaptersAux]
      rw [if_neg hc]

theorem runMangasAux_completes (warm : String → Nat → Nat → Bool) (elapsed : Nat → Nat)
    (list : List Manga) (fuel : Nat) (hb : ∀ r, elapsed r ≤ SOFT_BUDGET)
    (hw : ∀ nm c p0, ∃ j, j < fuel ∧ ∃ b, b < BATCH_SIZE ∧
      warm nm c (p0 + BATCH_SIZE * j + b) = false) :
    ∀ K st i round, ∃ A,
      runMangasAux warm elapsed list K st i round fuel = (A, .completed) := by
  intro K
  induction K with
  | zero => intro st i round; exact ⟨[], rfl⟩
  | succ K ih =>
    intro st i round
    by_cases hi : i < list.length
    · obtain ⟨A1, st2, r2, hch⟩ := runChaptersAux_finishes warm elapsed
        (list.get ⟨i, hi⟩).name (list.get ⟨i, hi⟩).chapters i fuel hb
        (fun c p0 => hw (list.get ⟨i, hi⟩).name c p0)
        ((list.get ⟨i, hi⟩).chapters + 1 - mangaStartC st i) st (mangaStartC st i) round
      obtain ⟨A2, hrec⟩ := ih ⟨st2.mIdx, 1, st2.pIdx⟩ (i + 1) r2
      refine ⟨A1 ++ A2, ?_⟩
      simp only [runMangasAux]
      rw [dif_pos hi]
      rw [show runChapters warm elapsed (list.get ⟨i, hi⟩).name (list.get ⟨i, hi⟩).chapters i st
        (mangaStartC st i) round fuel = (A1, ChapRes.finished st2 r2) from hch]
      simp only [hrec]
    · refine ⟨[], ?_⟩
      simp only [runMangasAux]
      rw [dif_neg hi]

/-- Claim C7: full-pass completion reset.  When the governor never trips
(every consultation is within budget) and every chapter's page scan ends
within the available rounds (some page of each batch window fails), the
traversal exhausts the whole catalog and the single checkpoint write of the
invocation is exactly `{mIdx: 0, cIdx: 1, pIdx: 0}`. -/
theorem claim_C7 (list : List Manga) (st : Checkpoint) (origin : String → Option Nat)
    (elapsed : Nat → Nat) (fuel : Nat)
    (hb : ∀ r, elapsed r ≤ SOFT_BUDGET)
    (hw : ∀ nm c p0, ∃ j, j < fuel ∧ ∃ b, b < BATCH_SIZE ∧
      warmUpPage origin nm c (p0 + BATCH_SIZE * j + b) = false) :
    (runSmartCacher (.ok list) st origin elapsed fuel).puts = [encodeState ⟨0, 1, 0⟩] := by
  obtain ⟨A, hA⟩ := runMangasAux_completes (fun nm c p => warmUpPage origin nm c p) elapsed
    list fuel hb hw (list.length - st.mIdx) st st.mIdx 0
  rw [runSmartCacher_of_completed list st origin elapsed fuel A hA]

/-- Concrete instance of C7: one manga, one chapter, every page fetch
missing; the pass completes and the checkpoint resets. -/
theorem claim_C7_witness :
    (runSmartCacher (.ok [⟨"A", 1⟩]) ⟨0, 1, 0⟩ (fun _ => some 404) (fun _ => 0) 1).puts
      = [encodeState ⟨0, 1, 0⟩] :=
  claim_C7 [⟨"A", 1⟩] ⟨0, 1, 0⟩ (fun _ => some 404) (fun _ => 0) 1
    (fun _ => Nat.zero_le _)
    (fun nm c p0 => ⟨0, by decide, 0, by decide, rfl⟩)

/-! ## Request path: responses, headers, and the cache-fill proxy

A `Resp` models a platform `Response` (status, header list, body).  The
edge cache is `cache : String → Option Resp`, keyed by target URL — the
source builds each cache key as `new Request(url, {headers: {Referer:
fixed}})`, so with the `Referer` constant, the URL determines the key.  The
origin is `origin : String → Resp` (a resolved fetch; a rejected fetch
would propagate out of `handleMangaLogic`, which produces no response of
its own in that case and is outside this model).
-/

structure Resp where
  status : Nat
  headers : List (String × String)
  body : String
deriving DecidableEq

/-- `Headers.set`: replaces the value of an existing header name, else
appends the pair. -/
def setHeader (hs : List (String × String)) (k v : String) : List (String × String) :=
  if hs.any (fun kv => kv.1 == k) then hs.map (fun kv => if kv.1 == k then (k, v) else kv)
  else hs ++ [(k, v)]

/-- `headers.get(k)` (first match). -/
def getHeader (hs : List (String × String)) (k : String) : Option String :=
  (hs.find? (fun kv => kv.1 == k)).map (fun kv => kv.2)

/-- `res.ok`: status in the 2xx range. -/
def respOk (r : Resp) : Bool := decide (200 ≤ r.status ∧ r.status ≤ 299)

/-- The header rewrite applied to a successful origin response on a cache
miss (lines 179-182 of the source). -/
def missHeaders (hs : List (String × String)) : List (String × String) :=
  setHeader (setHeader (setHeader hs
    "Access-Control-Allow-Origin" "*")
    "Cache-Control" ("public, max-age=" ++ natToString CACHE_TTL ++ ", immutable"))
    "X-Proxy-Cache" "MISS"

def notFoundResp : Resp := ⟨404, [], "Manga Page Not Found"⟩

/-- Observable outcome of the proxy: the response returned, the cache
writes scheduled via `ctx.waitUntil` (key, stored response), and the origin
URLs fetched, in order. -/
structure HandlerOut where
  resp : Resp
  puts : List (String × Resp)
  fetched : List String
deriving DecidableEq

/-- The `for (const url of targets)` loop of `handleMangaLogic`. -/
def handleTargets (cache : String → Option Resp) (origin : String → Resp) :
    List String → HandlerOut
  | [] => ⟨notFoundResp, [], []⟩
  | url :: rest =>
    match cache url with
    | some response =>
      ⟨⟨200, setHeader response.headers "X-Proxy-Cache" "HIT-V3", response.body⟩, [], []⟩
    | none =>
      if respOk (origin url) then
        ⟨⟨200, missHeaders (origin url).headers, (origin url).body⟩,
         [(url, ⟨200, missHeaders (origin url).headers, (origin url).body⟩)], [url]⟩
      else
        ⟨(handleTargets cache origin rest).resp, (handleTargets cache origin rest).puts,
         url :: (handleTargets cache origin rest).fetched⟩

def mangaBase (manga chapter : String) : String :=
  "https://cdne.megaman-server.ir/564/" ++ manga ++ "/" ++ chapter

def handleMangaLogic (cache : String → Option Resp) (origin : String → Resp)
    (manga chapter file : String) : HandlerOut :=
  handleTargets cache origin
    [mangaBase manga chapter ++ "/HD/" ++ file, mangaBase manga chapter ++ "/" ++ file]

/-! ## Signature verifier (`verifySignature`)

The Web Crypto HMAC-SHA256 primitive is abstracted as
`hmac : String → String → List Nat`, mapping `(secret, message)` to the MAC
byte sequence; `crypto.subtle.verify` succeeds exactly when the decoded
signature bytes equal that sequence.  The hex decode is modelled after the
source's `sig.match(/.{1,2}/g).map(byte => parseInt(byte, 16))` fed to a
`Uint8Array` (which coerces `NaN` to 0 and wraps integers mod 256), with
JavaScript `parseInt` semantics: skip whitespace, optional sign, parse the
longest valid digit prefix case-insensitively, `NaN` (here `none`) when no
digit is found.
-/

def isWsChar (ch : Char) : Bool := ch == ' ' || ch == '\t' || ch == '\n' || ch == '\r'

def dropWs (l : List Char) : List Char := l.dropWhile isWsChar

def parseDecAcc : Nat → List Char → Nat
  | a, [] => a
  | a, ch :: cs => if ch.isDigit then parseDecAcc (a * 10 + (ch.toNat - 48)) cs else a

/-- JavaScript `parseInt(s)` (radix 10): `none` models `NaN`. -/
def parseIntTen (s : String) : Option Int :=
  match dropWs s.toList with
  | [] => none
  | '-' :: cs =>
    match cs with
    | ch :: _ => if ch.isDigit then some (-(parseDecAcc 0 cs : Int)) else none
    | [] => none
  | '+' :: cs =>
    match cs with
    | ch :: _ => if ch.isDigit then some ((parseDecAcc 0 cs : Int)) else none
    | [] => none
  | ch :: cs => if ch.isDigit then some ((parseDecAcc 0 (ch :: cs) : Int)) else none

/-- Value of a hexadecimal digit, case-insensitive. -/
def hexVal (ch : Char) : Option Nat :=
  if '0' ≤ ch ∧ ch ≤ '9' then some (ch.toNat - 48)
  else if 'a' ≤ ch ∧ ch ≤ 'f' then some (ch.toNat - 87)
  else if 'A' ≤ ch ∧ ch ≤ 'F' then some (ch.toNat - 55)
  else none

def parseHexAcc : Nat → List Char → Nat
  | a, [] => a
  | a, ch :: cs =>
    match hexVal ch with
    | some d => parseHexAcc (a * 16 + d) cs
    | none => a

/-- JavaScript `parseInt(chunk, 16)` on a regex chunk. -/
def parseHexPairJs (chunk : List Char) : Option Int :=
  match dropWs chunk with
  | [] => none
  | '-' :: cs =>
    match cs with
    | ch :: _ => if (hexVal ch).isSome then some (-(parseHexAcc 0 cs : Int)) else none
    | [] => none
  | '+' :: cs =>
    match cs with
    | ch :: _ => if (hexVal ch).isSome then some ((parseHexAcc 0 cs : Int)) else none
    | [] => none
  | ch :: cs => if (hexVal ch).isSome then some ((parseHexAcc 0 (ch :: cs) : Int)) else none

/-- A character matched by `.` in a JavaScript regex (no DOTALL). -/
def dotChar (ch : Char) : Bool := !(ch == '\n' || ch == '\r')

/-- `s.match(/.{1,2}/g)`: greedy chunks of one or two `.`-matchable
characters, skipping unmatchable positions. -/
def chunk2 : List Char → List (List Char)
  | [] => []
  | [a] => if dotChar a then [[a]] else []
  | a :: b :: rest2 =>
    if dotChar a then
      if dotChar b then [a, b] :: chunk2 rest2
      else [a] :: chunk2 (b :: rest2)
    else chunk2 (b :: rest2)

/-- The chunk list of the signature, `none` when the regex match returns
`null` (so the subsequent `.map` throws and the `catch` yields `false`). -/
def hexChunks (s : String) : Option (List (List Char)) :=
  match chunk2 s.toList with
  | [] => none
  | cs => some cs

/-- `Uint8Array` element coercion: `NaN` becomes 0, integers wrap mod 256. -/
def toUint8 (v : Option Int) : Nat :=
  match v with
  | none => 0
  | some i => (i % 256).toNat

def decodeSig (chunks : List (List Char)) : List Nat :=
  chunks.map (fun ch => toUint8 (parseHexPairJs ch))

/-- JavaScript truthiness of `searchParams.get(...)`: `null` and `""` are
falsy. -/
def jsFalsy (o : Option String) : Bool :=
  match o with
  | none => true
  | some s => s == ""

/-- The expiry check `Math.abs(now - parseInt(timestamp)) > 3600`.  When
`parseInt` yields `NaN`, every comparison with `NaN` is `false`, so the
check does not reject. -/
def expiredTs (now : Int) (ts : String) : Bool :=
  match parseIntTen ts with
  | some n => decide (3600 < (now - n).natAbs)
  | none => false

def verifySignature (hmac : String → String → List Nat) (now : Int) (path : String)
    (ts? sig? : Option String) (secret : String) : Bool :=
  if jsFalsy sig? || jsFalsy ts? then false
  else if expiredTs now (ts?.getD "") then false
  else
    match hexChunks (sig?.getD "") with
    | none => false
    | some chunks =>
      decide (decodeSig chunks = hmac secret (path ++ ":" ++ (ts?.getD "")))

/-! ## Top-level fetch handler -/

def statusResp : Resp :=
  ⟨200, [("Content-Type", "text/plain; charset=utf-8")],
   "Manga Proxy Engine v3.1 | Status: Online"⟩

def forbiddenResp : Resp := ⟨403, [], "Access Denied: Invalid or Expired Signature"⟩

/-- The worker's `fetch` handler: path splitting, the status page for short
paths, the signature gate, then the cache-fill proxy. -/
def workerFetch (hmac : String → String → List Nat) (now : Int) (pathname : String)
    (sig ts : Option String) (cache : String → Option Resp) (origin : String → Resp) :
    HandlerOut :=
  if ((pathname.splitOn "/").filter (fun s => s != "")).length < 3 then ⟨statusResp, [], []⟩
  else if verifySignature hmac now pathname ts sig SECRET_KEY then
    handleMangaLogic cache origin
      (((pathname.splitOn "/").filter (fun s => s != "")).getD 0 "")
      (((pathname.splitOn "/").filter (fun s => s != "")).getD 1 "")
      (((pathname.splitOn "/").filter (fun s => s != "")).getD 2 "")
  else ⟨forbiddenResp, [], []⟩

/-! ## Header lemmas -/

theorem find?_map_set_self (k v : String) :
    ∀ hs : List (String × String), hs.any (fun kv => kv.1 == k) = true →
      (hs.map (fun kv => if kv.1 == k then (k, v) else kv)).find? (fun kv => kv.1 == k)
        = some (k, v) := by
  intro hs
  induction hs with
  | nil => intro h; simp at h
  | cons a t ih =>
    intro h
    by_cases ha : (a.1 == k) = true
    · rw [List.map_cons, if_pos ha, List.find?_cons_of_pos _ (by simp)]
    · rw [List.map_cons, if_neg ha, List.find?_cons_of_neg _ (by simpa using ha)]
      apply ih
      simp only [List.any_cons, ha, Bool.false_or] at h
      exact h

theorem find?_map_set_other (k v k' : String) (hne : k' ≠ k) :
    ∀ hs : List (String × String),
      (hs.map (fun kv => if kv.1 == k then (k, v) else kv)).find? (fun kv => kv.1 == k')
        = hs.find? (fun kv => kv.1 == k') := by
  intro hs
  induction hs with
  | nil => simp
  | cons a t ih =>
    by_cases ha : (a.1 == k) = true
    · have hak : a.1 = k := by simpa using ha
      have hp1 : ¬ (((k, v) : String × String).1 == k') = true := by
        simp
        exact fun hx => hne hx.symm
      have hp2 : ¬ (a.1 == k') = true := by
        simp [hak]
        exact fun hx => hne hx.symm
      rw [List.map_cons, if_pos ha, List.find?_cons_of_neg _ (by simpa using hp1),
        List.find?_cons_of_neg _ (by simpa using hp2)]
      exact ih
    · rw [List.map_cons, if_neg ha]
      by_cases ha2 : (a.1 == k') = true
      · rw [List.find?_cons_of_pos _ (by simpa using ha2),
          List.find?_cons_of_pos _ (by simpa using ha2)]
      · rw [List.find?_cons_of_neg _ (by simpa using ha2),
          List.find?_cons_of_neg _ (by simpa using ha2)]
        exact ih

theorem find?_append_single_neg (p : String × String → Bool) (x : String × String)
    (hx : p x = false) : ∀ l : List (String × String), (l ++ [x]).find? p = l.find? p := by
  intro l
  induction l with
  | nil =>
    rw [List.nil_append]
    rw [List.find?_cons_of_neg _ (by simp [hx])]
  | cons a t ih =>
    by_cases ha : p a = true
    · rw [List.cons_append, List.find?_cons_of_pos _ ha, List.find?_cons_of_pos _ ha]
    · rw [List.cons_append, List.find?_cons_of_neg _ (by simpa using ha),
        List.find?_cons_of_neg _ (by simpa using ha)]
      exact ih

theorem find?_of_any_false (p : String × String → Bool) :
    ∀ (hs l : List (String × String)), hs.any p = false →
      (hs ++ l).find? p = l.find? p := by
  intro hs
  induction hs with
  | nil => intro l _; simp
  | cons a t ih =>
    intro l h
    simp only [List.any_cons, Bool.or_eq_false_iff] at h
    rw [List.cons_append, List.find?_cons_of_neg _ (by simp [h.1])]
    exact ih l h.2

theorem getHeader_setHeader_self (hs : List (String × String)) (k v : String) :
    getHeader (setHeader hs k v) k = some v := by
  unfold setHeader getHeader
  cases hany : hs.any (fun kv => kv.1 == k) with
  | true => rw [if_pos (Eq.refl true), find?_map_set_self k v hs hany]; rfl
  | false =>
    rw [if_neg (by simp), find?_of_any_false _ hs [(k, v)] hany,
      List.find?_cons_of_pos _ (by simp)]
    rfl

theorem getHeader_setHeader_other (hs : List (String × String)) (k v k' : String)
    (hne : k' ≠ k) : getHeader (setHeader hs k v) k' = getHeader hs k' := by
  unfold setHeader getHeader
  cases hany : hs.any (fun kv => kv.1 == k) with
  | true => rw [if_pos (Eq.refl true), find?_map_set_other k v k' hne hs]
  | false =>
    rw [if_neg (by simp),
      find?_append_single_neg _ (k, v) (by simp; exact fun hx => hne hx.symm) hs]

theorem getHeader_missHeaders_xpc (hs : List (String × String)) :
    getHeader (missHeaders hs) "X-Proxy-Cache" = some "MISS" :=
  getHeader_setHeader_self _ _ _

theorem getHeader_missHeaders_acao (hs : List (String × String)) :
    getHeader (missHeaders hs) "Access-Control-Allow-Origin" = some "*" := by
  unfold missHeaders
  rw [getHeader_setHeader_other _ _ _ _ (by decide),
    getHeader_setHeader_other _ _ _ _ (by decide)]
  exact getHeader_setHeader_self _ _ _

theorem getHeader_missHeaders_cc (hs : List (String × String)) :
    getHeader (missHeaders hs) "Cache-Control" =
      some ("public, max-age=" ++ natToString CACHE_TTL ++ ", immutable") := by
  unfold missHeaders
  rw [getHeader_setHeader_other _ _ _ _ (by decide)]
  exact getHeader_setHeader_self _ _ _

theorem handleTargets_status (cache : String → Option Resp) (origin : String → Resp) :
    ∀ targets, (handleTargets cache origin targets).resp.status = 200 ∨
      (handleTargets cache origin targets).resp.status = 404 := by
  intro targets
  induction targets with
  | nil => right; rfl
  | cons url rest ih =>
    simp only [handleTargets]
    cases cache url with
    | some r => left; rfl
    | none =>
      by_cases hok : respOk (origin url) = true
      · rw [if_pos hok]
        left
        rfl
      · rw [if_neg hok]
        exact ih

/-- Claim C10: every response the worker's fetch handler produces has status
exactly 200, 403, or 404; a cache hit is re-served as a fresh response with
status 200 regardless of the stored response's status; and a 2xx origin
response (whatever its exact 2xx status) is rewritten to status 200. -/
theorem claim_C10 :
    (∀ (hmac : String → String → List Nat) (now : Int) (pathname : String)
        (sig ts : Option String) (cache : String → Option Resp) (origin : String → Resp),
      (workerFetch hmac now pathname sig ts cache origin).resp.status = 200 ∨
      (workerFetch hmac now pathname sig ts cache origin).resp.status = 403 ∨
      (workerFetch hmac now pathname sig ts cache origin).resp.status = 404) ∧
    (∀ (cache : String → Option Resp) (origin : String → Resp) (url : String)
        (rest : List String) (r : Resp), cache url = some r →
      (handleTargets cache origin (url :: rest)).resp.status = 200) ∧
    (∀ (cache : String → Option Resp) (origin : String → Resp) (url : String)
        (rest : List String), cache url = none → respOk (origin url) = true →
      (handleTargets cache origin (url :: rest)).resp.status = 200) := by
  refine ⟨?_, ?_, ?_⟩
  · intro hmac now pathname sig ts cache origin
    unfold workerFetch
    by_cases h3 : ((pathname.splitOn "/").filter (fun s => s != "")).length < 3
    · rw [if_pos h3]
      left
      rfl
    · rw [if_neg h3]
      by_cases hv : verifySignature hmac now pathname ts sig SECRET_KEY = true
      · rw [if_pos hv]
        rcases handleTargets_status cache origin _ with h | h
        · left; exact h
        · right; right; exact h
      · rw [if_neg hv]
        right; left; rfl
  · intro cache origin url rest r hr
    simp only [handleTargets, hr]
  · intro cache origin url rest hr hok
    simp only [handleTargets, hr]
    rw [if_pos hok]

/-- Concrete instance of C10: a hit whose cached response has status 999 is
re-served as 200, and a 204 origin response is rewritten to 200. -/
theorem claim_C10_witness :
    ((workerFetch (fun _ _ => []) 0 "/" none none (fun _ => none)
      (fun _ => ⟨500, [], ""⟩)).resp.status = 200 ∨
     (workerFetch (fun _ _ => []) 0 "/" none none (fun _ => none)
      (fun _ => ⟨500, [], ""⟩)).resp.status = 403 ∨
     (workerFetch (fun _ _ => []) 0 "/" none none (fun _ => none)
      (fun _ => ⟨500, [], ""⟩)).resp.status = 404) ∧
    (handleTargets (fun _ => some ⟨999, [], "b"⟩) (fun _ => ⟨500, [], ""⟩)
      ["u"]).resp.status = 200 ∧
    (handleTargets (fun _ => none) (fun _ => ⟨204, [], ""⟩) ["u"]).resp.status = 200 :=
  ⟨claim_C10.1 (fun _ _ => []) 0 "/" none none (fun _ => none) (fun _ => ⟨500, [], ""⟩),
   claim_C10.2.1 (fun _ => some ⟨999, [], "b"⟩) (fun _ => ⟨500, [], ""⟩) "u" [] ⟨999, [], "b"⟩ rfl,
   claim_C10.2.2 (fun _ => none) (fun _ => ⟨204, [], ""⟩) "u" [] rfl (by decide)⟩

/-- Claim C4 (amended): cache-fill proxy responses.  For each URL variant in
order (HD first, then fallback): a cache hit returns immediately with the
cached body and no origin fetch, stamped `X-Proxy-Cache: HIT-V3` (the
source's diagnostic value — not the plain `HIT` the original claim
stated); a miss with a 2xx origin response returns status 200 with
`Access-Control-Allow-Origin: *`,
`Cache-Control: public, max-age=<ttl>, immutable` and `X-Proxy-Cache:
MISS`; if every variant fails, the result is the 404 plain-text
response. -/
theorem claim_C4 (cache : String → Option Resp) (origin : String → Resp)
    (manga chapter file : String) :
    (∀ r, cache (mangaBase manga chapter ++ "/HD/" ++ file) = some r →
      handleMangaLogic cache origin manga chapter file =
        ⟨⟨200, setHeader r.headers "X-Proxy-Cache" "HIT-V3", r.body⟩, [], []⟩ ∧
      getHeader (setHeader r.headers "X-Proxy-Cache" "HIT-V3") "X-Proxy-Cache"
        = some "HIT-V3") ∧
    (cache (mangaBase manga chapter ++ "/HD/" ++ file) = none →
      respOk (origin (mangaBase manga chapter ++ "/HD/" ++ file)) = true →
      handleMangaLogic cache origin manga chapter file =
        ⟨⟨200, missHeaders (origin (mangaBase manga chapter ++ "/HD/" ++ file)).headers,
          (origin (mangaBase manga chapter ++ "/HD/" ++ file)).body⟩,
         [(mangaBase manga chapter ++ "/HD/" ++ file,
           ⟨200, missHeaders (origin (mangaBase manga chapter ++ "/HD/" ++ file)).headers,
            (origin (mangaBase manga chapter ++ "/HD/" ++ file)).body⟩)],
         [mangaBase manga chapter ++ "/HD/" ++ file]⟩ ∧
      getHeader (missHeaders (origin (mangaBase manga chapter ++ "/HD/" ++ file)).headers)
        "X-Proxy-Cache" = some "MISS" ∧
      getHeader (missHeaders (origin (mangaBase manga chapter ++ "/HD/" ++ file)).headers)
        "Access-Control-Allow-Origin" = some "*" ∧
      getHeader (missHeaders (origin (mangaBase manga chapter ++ "/HD/" ++ file)).headers)
        "Cache-Control" = some ("public, max-age=" ++ natToString CACHE_TTL ++ ", immutable")) ∧
    (∀ r, cache (mangaBase manga chapter ++ "/HD/" ++ file) = none →
      respOk (origin (mangaBase manga chapter ++ "/HD/" ++ file)) = false →
      cache (mangaBase manga chapter ++ "/" ++ file) = some r →
      handleMangaLogic cache origin manga chapter file =
        ⟨⟨200, setHeader r.headers "X-Proxy-Cache" "HIT-V3", r.body⟩, [],
         [mangaBase manga chapter ++ "/HD/" ++ file]⟩) ∧
    (cache (mangaBase manga chapter ++ "/HD/" ++ file) = none →
      respOk (origin (mangaBase manga chapter ++ "/HD/" ++ file)) = false →
      cache (mangaBase manga chapter ++ "/" ++ file) = none →
      respOk (origin (mangaBase manga chapter ++ "/" ++ file)) = true →
      handleMangaLogic cache origin manga chapter file =
        ⟨⟨200, missHeaders (origin (mangaBase manga chapter ++ "/" ++ file)).headers,
          (origin (mangaBase manga chapter ++ "/" ++ file)).body⟩,
         [(mangaBase manga chapter ++ "/" ++ file,
           ⟨200, missHeaders (origin (mangaBase manga chapter ++ "/" ++ file)).headers,
            (origin (mangaBase manga chapter ++ "/" ++ file)).body⟩)],
         [mangaBase manga chapter ++ "/HD/" ++ file,
          mangaBase manga chapter ++ "/" ++ file]⟩) ∧
    (cache (mangaBase manga chapter ++ "/HD/" ++ file) = none →
      respOk (origin (mangaBase manga chapter ++ "/HD/" ++ file)) = false →
      cache (mangaBase manga chapter ++ "/" ++ file) = none →
      respOk (origin (mangaBase manga chapter ++ "/" ++ file)) = false →
      handleMangaLogic cache origin manga chapter file =
        ⟨notFoundResp, [],
         [mangaBase manga chapter ++ "/HD/" ++ file,
          mangaBase manga chapter ++ "/" ++ file]⟩ ∧
      notFoundResp.status = 404) := by
  refine ⟨?_, ?_, ?_, ?_, ?_⟩
  · intro r h1
    refine ⟨?_, getHeader_setHeader_self _ _ _⟩
    simp only [handleMangaLogic, handleTargets, h1]
  · intro h1 hok
    refine ⟨?_, getHeader_missHeaders_xpc _, getHeader_missHeaders_acao _,
      getHeader_missHeaders_cc _⟩
    simp only [handleMangaLogic, handleTargets, h1]
    rw [if_pos hok]
  · intro r h1 hok h2
    simp only [handleMangaLogic, handleTargets, h1, h2]
    rw [if_neg (by simp [hok])]
  · intro h1 hok h2 hok2
    simp only [handleMangaLogic, handleTargets, h1, h2]
    rw [if_neg (by simp [hok]), if_pos hok2]
  · intro h1 hok h2 hok2
    refine ⟨?_, rfl⟩
    simp only [handleMangaLogic, handleTargets, h1, h2]
    rw [if_neg (by simp [hok]), if_neg (by simp [hok2])]

/-- Counterexample to C4 as stated: at a concrete cache hit, the diagnostic
header carries the value `HIT-V3`, not `HIT`. -/
theorem claim_C4_counterexample :
    getHeader (handleMangaLogic
        (fun u => if u == "https://cdne.megaman-server.ir/564/naruto/7/HD/5.webp"
          then some ⟨200, [], "BODY"⟩ else none)
        (fun _ => ⟨500, [], ""⟩) "naruto" "7" "5.webp").resp.headers "X-Proxy-Cache"
      = some "HIT-V3" ∧
    ¬ getHeader (handleMangaLogic
        (fun u => if u == "https://cdne.megaman-server.ir/564/naruto/7/HD/5.webp"
          then some ⟨200, [], "BODY"⟩ else none)
        (fun _ => ⟨500, [], ""⟩) "naruto" "7" "5.webp").resp.headers "X-Proxy-Cache"
      = some "HIT" ∧
    (handleMangaLogic
        (fun u => if u == "https://cdne.megaman-server.ir/564/naruto/7/HD/5.webp"
          then some ⟨200, [], "BODY"⟩ else none)
        (fun _ => ⟨500, [], ""⟩) "naruto" "7" "5.webp").fetched = [] := by
  decide

/-- Concrete instance of the amended C4: a hit on the HD variant and a full
miss both behave as described. -/
theorem claim_C4_witness :
    handleMangaLogic
        (fun u => if u == "https://cdne.megaman-server.ir/564/naruto/7/HD/5.webp"
          then some ⟨200, [], "BODY"⟩ else none)
        (fun _ => ⟨500, [], ""⟩) "naruto" "7" "5.webp" =
      ⟨⟨200, setHeader ([] : List (String × String)) "X-Proxy-Cache" "HIT-V3", "BODY"⟩,
       [], []⟩ ∧
    handleMangaLogic (fun _ => none) (fun _ => ⟨500, [], ""⟩) "naruto" "7" "5.webp" =
      ⟨notFoundResp, [],
       ["https://cdne.megaman-server.ir/564/naruto/7/HD/5.webp",
        "https://cdne.megaman-server.ir/564/naruto/7/5.webp"]⟩ := by
  constructor
  · exact ((claim_C4
      (fun u => if u == "https://cdne.megaman-server.ir/564/naruto/7/HD/5.webp"
        then some ⟨200, [], "BODY"⟩ else none)
      (fun _ => ⟨500, [], ""⟩) "naruto" "7" "5.webp").1 ⟨200, [], "BODY"⟩ (by decide)).1
  · have h := ((claim_C4 (fun _ => none) (fun _ => ⟨500, [], ""⟩)
      "naruto" "7" "5.webp").2.2.2.2 rfl (by decide) rfl (by decide)).1
    exact h

/-- Claim C5 (amended): signature verifier contract.  `verifySignature` is a
total boolean function (the model of "never throws": every internal failure
collapses to `false`).  It returns `false` whenever the signature or
timestamp is absent or empty, whenever a numeric timestamp differs from the
current time by more than 3600 seconds in either direction, whenever the
hex decode fails outright (the chunking regex matches nothing), and
whenever the decoded signature bytes differ from the HMAC of
`"{path}:{timestamp}"` — which covers any tampering that changes the
decoded byte sequence.  A correctly signed pair within the window returns
`true`.  (The original claim's "any single-character tampering of a valid
signature fails" is too strong: a tampering that preserves the decoded
bytes — e.g. changing the case of a hex letter — still verifies; see the
counterexample.) -/
theorem claim_C5 (hmac : String → String → List Nat) (now : Int) (path : String)
    (ts? sig? : Option String) (secret : String) :
    ((jsFalsy sig? = true ∨ jsFalsy ts? = true) →
      verifySignature hmac now path ts? sig? secret = false) ∧
    (∀ ts n, ts? = some ts → parseIntTen ts = some n → 3600 < (now - n).natAbs →
      verifySignature hmac now path ts? sig? secret = false) ∧
    (∀ sig, sig? = some sig → hexChunks sig = none →
      verifySignature hmac now path ts? sig? secret = false) ∧
    (∀ ts sig chunks, ts? = some ts → sig? = some sig → hexChunks sig = some chunks →
      decodeSig chunks ≠ hmac secret (path ++ ":" ++ ts) →
      verifySignature hmac now path ts? sig? secret = false) ∧
    (∀ ts sig chunks n, ts? = some ts → sig? = some sig → ts ≠ "" → sig ≠ "" →
      parseIntTen ts = some n → (now - n).natAbs ≤ 3600 →
      hexChunks sig = some chunks →
      decodeSig chunks = hmac secret (path ++ ":" ++ ts) →
      verifySignature hmac now path ts? sig? secret = true) := by
  refine ⟨?_, ?_, ?_, ?_, ?_⟩
  · intro h
    unfold verifySignature
    rcases h with h | h <;> rw [if_pos (by simp [h])]
  · intro ts n hts hn habs
    unfold verifySignature
    by_cases hf : (jsFalsy sig? || jsFalsy ts?) = true
    · rw [if_pos hf]
    · rw [if_neg hf, if_pos ?_]
      subst hts
      simp only [Option.getD_some, expiredTs, hn]
      simpa using habs
  · intro sig hsig hch
    unfold verifySignature
    by_cases hf : (jsFalsy sig? || jsFalsy ts?) = true
    · rw [if_pos hf]
    · rw [if_neg hf]
      by_cases he : expiredTs now (ts?.getD "") = true
      · rw [if_pos he]
      · rw [if_neg he]
        subst hsig
        simp only [Option.getD_some, hch]
  · intro ts sig chunks hts hsig hch hne
    unfold verifySignature
    by_cases hf : (jsFalsy sig? || jsFalsy ts?) = true
    · rw [if_pos hf]
    · rw [if_neg hf]
      by_cases he : expiredTs now (ts?.getD "") = true
      · rw [if_pos he]
      · rw [if_neg he]
        subst hsig
        subst hts
        simp only [Option.getD_some, hch]
        simpa using hne
  · intro ts sig chunks n hts hsig htne hsne hn habs hch heq
    subst hts
    subst hsig
    unfold verifySignature
    rw [if_neg (by simp [jsFalsy, htne, hsne])]
    rw [if_neg ?_]
    · simp only [Option.getD_some, hch]
      simpa using heq
    · simp only [Option.getD_some, expiredTs, hn]
      simpa using habs

/-- Counterexample to C5 as stated: under a MAC model whose 32 bytes are all
`0xab`, the 64-character hex signature `"ababab...ab"` verifies, and so
does the string obtained by tampering with exactly one of its characters
(`'a' -> 'A'` at position 0), because JavaScript's `parseInt(…, 16)` decodes
hexadecimal case-insensitively, so the decoded byte sequence is unchanged. -/
theorem claim_C5_counterexample :
    ("abababababababababababababababababababababababababababababababab" : String)
      ≠ "Abababababababababababababababababababababababababababababababab" ∧
    ("abababababababababababababababababababababababababababababababab" : String).length
      = ("Abababababababababababababababababababababababababababababababab" : String).length ∧
    (List.zipWith (fun x y => decide (x ≠ y))
        ("abababababababababababababababababababababababababababababababab" : String).toList
        ("Abababababababababababababababababababababababababababababababab" : String).toList).count true = 1 ∧
    verifySignature (fun _ _ => List.replicate 32 171) 1000 "/x" (some "900")
      (some "abababababababababababababababababababababababababababababababab") "k" = true ∧
    verifySignature (fun _ _ => List.replicate 32 171) 1000 "/x" (some "900")
      (some "Abababababababababababababababababababababababababababababababab") "k" = true := by
  decide

/-- Concrete instance of the amended C5: the boundary behavior.  With
`now = 10000`, a correctly signed request at timestamp `6401 = now - 3599`
verifies; one at `6399 = now - 3601` is rejected. -/
theorem claim_C5_witness :
    verifySignature (fun _ _ => [171]) 10000 "/x" (some "6401") (some "ab") "k" = true ∧
    verifySignature (fun _ _ => [171]) 10000 "/x" (some "6399") (some "ab") "k" = false := by
  constructor
  · exact (claim_C5 (fun _ _ => [171]) 10000 "/x" (some "6401") (some "ab") "k").2.2.2.2
      "6401" "ab" [['a', 'b']] 6401 rfl rfl (by decide) (by decide) (by decide) (by decide)
      (by decide) (by decide)
  · exact (claim_C5 (fun _ _ => [171]) 10000 "/x" (some "6399") (some "ab") "k").2.1
      "6399" 6399 rfl (by decide) (by decide)

/-- Claim C9: non-numeric timestamps never expire.  For every timestamp
string whose `parseInt` yields `NaN` (modelled as `parseIntTen ts = none`,
e.g. `"abc"`), the expiry check `Math.abs(now - NaN) > 3600` is `false`, so
it does not reject; a request whose decoded signature matches the HMAC over
`"{path}:{timestamp}"` is therefore accepted for every value of `now` —
regardless of how old the request is. -/
theorem claim_C9 (hmac : String → String → List Nat) (now : Int) (path ts sig : String)
    (chunks : List (List Char)) (secret : String)
    (hts : parseIntTen ts = none) (htne : ts ≠ "")
    (hch : hexChunks sig = some chunks) (hsne : sig ≠ "")
    (heq : decodeSig chunks = hmac secret (path ++ ":" ++ ts)) :
    verifySignature hmac now path (some ts) (some sig) secret = true := by
  unfold verifySignature
  rw [if_neg (by simp [jsFalsy, htne, hsne])]
  rw [if_neg ?_]
  · simp only [Option.getD_some, hch]
    simpa using heq
  · simp only [Option.getD_some, expiredTs, hts]
    simp

/-- Concrete instance of C9: timestamp `"abc"` is accepted with an arbitrarily
large `now` (a billion seconds after the epoch of the signature). -/
theorem claim_C9_witness :
    verifySignature (fun _ _ => [171]) 1000000000 "/x" (some "abc") (some "ab") "k" = true :=
  claim_C9 (fun _ _ => [171]) 1000000000 "/x" "abc" "ab" [['a', 'b']] "k"
    (by decide) (by decide) (by decide) (by decide) (by decide)

/-! ## Checkpoint persistence: JSON values, `JSON.parse`, and state loading

`Jval` is the JSON value domain.  `jparse` models `JSON.parse` on the
fragment of JSON the checkpoint store can contain: literals, integer
numerals, escape-free strings, arrays and objects (fractional/exponent
numerals and string escapes are outside the model and parse as failures).
`loadState` is the load sequence of lines 68-72: default on a missing or
falsy raw value, `JSON.parse` otherwise, and the default again only when
parsing throws — a successfully parsed value of the wrong shape is used
as-is.
-/

inductive Jval where
  | jnull
  | jbool (b : Bool)
  | jnum (n : Int)
  | jstr (s : String)
  | jarr (xs : List Jval)
  | jobj (fields : List (String × Jval))

def jsonWsChar (ch : Char) : Bool := ch == ' ' || ch == '\t' || ch == '\n' || ch == '\r'

def skipJWs (l : List Char) : List Char := l.dropWhile jsonWsChar

/-- Parse the remainder of a JSON string literal (opening quote already
consumed); escape sequences are outside the modelled fragment. -/
def jpStrAux : List Char → List Char → Option (String × List Char)
  | _, [] => none
  | acc, ch :: r =>
    if ch == '"' then some (String.mk acc.reverse, r)
    else if ch == '\\' then none
    else jpStrAux (ch :: acc) r

/-- Parse a decimal digit prefix, returning the value and the remainder. -/
def parseDecRest : Nat → List Char → Nat × List Char
  | a, [] => (a, [])
  | a, ch :: cs => if ch.isDigit then parseDecRest (a * 10 + (ch.toNat - 48)) cs else (a, ch :: cs)

/-- Object member list: parse `"key": value` pairs separated by `,` until a
closing brace, with `vp` parsing each member value. -/
def jpMembersF (vp : List Char → Option (Jval × List Char)) :
    Nat → List Char → List (String × Jval) → Option (Jval × List Char)
  | 0, _, _ => none
  | F + 1, cs, acc =>
    match skipJWs cs with
    | [] => none
    | ch :: cs1 =>
      if ch == '"' then
        match jpStrAux [] cs1 with
        | none => none
        | some (k, cs2) =>
          match skipJWs cs2 with
          | [] => none
          | c2 :: cs3 =>
            if c2 == ':' then
              match vp cs3 with
              | none => none
              | some (v, cs4) =>
                match skipJWs cs4 with
                | [] => none
                | c3 :: cs5 =>
                  if c3 == ',' then jpMembersF vp F cs5 (acc ++ [(k, v)])
                  else if c3 == '\x7d' then some (Jval.jobj (acc ++ [(k, v)]), cs5)
                  else none
            else none
      else none

/-- Array element list: parse values separated by `,` until a closing
bracket. -/
def jpElemsF (vp : List Char → Option (Jval × List Char)) :
    Nat → List Char → List Jval → Option (Jval × List Char)
  | 0, _, _ => none
  | F + 1, cs, acc =>
    match vp cs with
    | none => none
    | some (v, cs2) =>
      match skipJWs cs2 with
      | [] => none
      | c2 :: cs3 =>
        if c2 == ',' then jpElemsF vp F cs3 (acc ++ [v])
        else if c2 == ']' then some (Jval.jarr (acc ++ [v]), cs3)
        else none

/-- Fueled JSON value parser. -/
def jpVal : Nat → List Char → Option (Jval × List Char)
  | 0, _ => none
  | F + 1, cs =>
    match skipJWs cs with
    | [] => none
    | ch :: cs1 =>
      if ch.isDigit then
        some (Jval.jnum ((parseDecRest 0 (ch :: cs1)).1 : Int), (parseDecRest 0 (ch :: cs1)).2)
      else if ch == '-' then
        match cs1 with
        | [] => none
        | c2 :: _ =>
          if c2.isDigit then
            some (Jval.jnum (-((parseDecRest 0 cs1).1 : Int)), (parseDecRest 0 cs1).2)
          else none
      else if ch == '"' then
        match jpStrAux [] cs1 with
        | some (s, r) => some (Jval.jstr s, r)
        | none => none
      else if ch == '\x7b' then
        match skipJWs cs1 with
        | [] => none
        | c2 :: cs2 =>
          if c2 == '\x7d' then some (Jval.jobj [], cs2)
          else jpMembersF (jpVal F) F cs1 []
      else if ch == '[' then
        match skipJWs cs1 with
        | [] => none
        | c2 :: cs2 =>
          if c2 == ']' then some (Jval.jarr [], cs2)
          else jpElemsF (jpVal F) F cs1 []
      else if ch == 't' then
        match cs1 with
        | 'r' :: 'u' :: 'e' :: r => some (Jval.jbool true, r)
        | _ => none
      else if ch == 'f' then
        match cs1 with
        | 'a' :: 'l' :: 's' :: 'e' :: r => some (Jval.jbool false, r)
        | _ => none
      else if ch == 'n' then
        match cs1 with
        | 'u' :: 'l' :: 'l' :: r => some (Jval.jnull, r)
        | _ => none
      else none

/-- `JSON.parse`: parse one value and require only whitespace to remain;
`none` models a thrown `SyntaxError`. -/
def jparse (s : String) : Option Jval :=
  match jpVal (s.length + 1) s.toList with
  | some (v, rest) => if skipJWs rest = [] then some v else none
  | none => none

/-- The default in-memory state `{ mIdx: 0, cIdx: 1, pIdx: 0 }` as a JSON
value. -/
def defaultStateJ : Jval :=
  Jval.jobj [("mIdx", Jval.jnum 0), ("cIdx", Jval.jnum 1), ("pIdx", Jval.jnum 0)]

/-- Lines 68-72: `let state = default; if (stateRaw) { try { state =
JSON.parse(stateRaw) } catch { state = default } }`. -/
def loadState (raw : Option String) : Jval :=
  match raw with
  | none => defaultStateJ
  | some s =>
    if s == "" then defaultStateJ
    else
      match jparse s with
      | some v => v
      | none => defaultStateJ

/-- JavaScript property access `v[k]`: a field lookup on objects,
`undefined` (here `none`) on everything else. -/
def jsGet (v : Jval) (k : String) : Option Jval :=
  match v with
  | Jval.jobj fields => (fields.find? (fun kv => kv.1 == k)).map (fun kv => kv.2)
  | _ => none

/-- The JSON object `JSON.stringify` serializes for a checkpoint. -/
def objOfState (cp : Checkpoint) : Jval :=
  Jval.jobj [("mIdx", Jval.jnum (cp.mIdx : Int)), ("cIdx", Jval.jnum (cp.cIdx : Int)),
    ("pIdx", Jval.jnum (cp.pIdx : Int))]

/-! ## Round trip of the checkpoint serialization -/

theorem natDigitsAux_congr : ∀ F G n, n < F → n < G → natDigitsAux F n = natDigitsAux G n := by
  intro F
  induction F with
  | zero => intro G n h; exact absurd h (by omega)
  | succ F ih =>
    intro G n hF hG
    cases G with
    | zero => exact absurd hG (by omega)
    | succ G =>
      simp only [natDigitsAux]
      by_cases h10 : n < 10
      · rw [if_pos h10, if_pos h10]
      · rw [if_neg h10, if_neg h10]
        have hd : n / 10 < n := Nat.div_lt_self (by omega) (by omega)
        rw [ih G (n / 10) (by omega) (by omega)]

theorem natDigitsAux_succ (F n : Nat) :
    natDigitsAux (F + 1) n = if n < 10 then [Char.ofNat (48 + n)]
      else natDigitsAux F (n / 10) ++ [Char.ofNat (48 + n % 10)] := rfl

theorem natDigits_eq (n : Nat) :
    natDigits n = if n < 10 then [Char.ofNat (48 + n)]
      else natDigits (n / 10) ++ [Char.ofNat (48 + n % 10)] := by
  by_cases h10 : n < 10
  · rw [if_pos h10]
    show natDigitsAux (n + 1) n = _
    rw [natDigitsAux_succ, if_pos h10]
  · rw [if_neg h10]
    show natDigitsAux (n + 1) n = _
    rw [natDigitsAux_succ, if_neg h10]
    have hd : n / 10 < n := Nat.div_lt_self (by omega) (by omega)
    rw [natDigitsAux_congr n (n / 10 + 1) (n / 10) (by omega) (by omega)]
    rfl

theorem digitChar_isDigit {d : Nat} (h : d < 10) : (Char.ofNat (48 + d)).isDigit = true := by
  interval_cases d <;> decide

theorem digitChar_toNat {d : Nat} (h : d < 10) : (Char.ofNat (48 + d)).toNat = 48 + d := by
  interval_cases d <;> decide

theorem natDigits_ne_nil (n : Nat) : natDigits n ≠ [] := by
  rw [natDigits_eq]
  split_ifs <;> simp

theorem natDigits_all_digit (n : Nat) : ∀ ch ∈ natDigits n, ch.isDigit = true := by
  induction n using Nat.strong_induction_on with
  | _ n ih =>
    rw [natDigits_eq]
    by_cases h10 : n < 10
    · rw [if_pos h10]
      intro ch hch
      rw [List.mem_singleton] at hch
      subst hch
      exact digitChar_isDigit h10
    · rw [if_neg h10]
      intro ch hch
      rcases List.mem_append.mp hch with hl | hr
      · exact ih (n / 10) (Nat.div_lt_self (by omega) (by omega)) ch hl
      · rw [List.mem_singleton] at hr
        subst hr
        exact digitChar_isDigit (Nat.mod_lt n (by omega))

theorem parseDecRest_digits : ∀ n a rest, parseDecRest a (natDigits n ++ rest) =
    parseDecRest (a * 10 ^ (natDigits n).length + n) rest := by
  intro n
  induction n using Nat.strong_induction_on with
  | _ n ih =>
    intro a rest
    by_cases h10 : n < 10
    · rw [natDigits_eq, if_pos h10]
      simp only [List.singleton_append, List.length_singleton, parseDecRest,
        digitChar_isDigit h10, if_pos]
      rw [digitChar_toNat h10]
      have : a * 10 + (48 + n - 48) = a * 10 ^ 1 + n := by omega
      rw [this]
      rfl
    · rw [natDigits_eq, if_neg h10]
      rw [List.append_assoc, List.singleton_append]
      have hd : n / 10 < n := Nat.div_lt_self (by omega) (by omega)
      rw [ih (n / 10) hd a (Char.ofNat (48 + n % 10) :: rest)]
      have hm10 : n % 10 < 10 := Nat.mod_lt n (by omega)
      simp only [parseDecRest, digitChar_isDigit hm10, if_pos]
      rw [digitChar_toNat hm10]
      have hlen : (natDigits (n / 10) ++ [Char.ofNat (48 + n % 10)]).length
          = (natDigits (n / 10)).length + 1 := by simp
      rw [hlen]
      have hdm : 10 * (n / 10) + n % 10 = n := Nat.div_add_mod n 10
      have hpow : 10 ^ ((natDigits (n / 10)).length + 1)
          = 10 ^ (natDigits (n / 10)).length * 10 := pow_succ 10 _
      rw [hpow]
      have key : (a * 10 ^ (natDigits (n / 10)).length + n / 10) * 10 + (48 + n % 10 - 48)
          = a * (10 ^ (natDigits (n / 10)).length * 10) + n := by
        have h48 : 48 + n % 10 - 48 = n % 10 := by omega
        rw [h48]
        ring_nf
        omega
      rw [key]

theorem parseDecRest_stop (a : Nat) (rest : List Char)
    (h : ∀ ch, rest.head? = some ch → ch.isDigit = false) :
    parseDecRest a rest = (a, rest) := by
  cases rest with
  | nil => rfl
  | cons ch r =>
    have := h ch rfl
    simp [parseDecRest, this]

theorem skipJWs_cons_of_not_ws {ch : Char} (h : jsonWsChar ch = false) (l : List Char) :
    skipJWs (ch :: l) = ch :: l := by
  simp [skipJWs, List.dropWhile_cons, h]

theorem digit_not_jsonWs {ch : Char} (h : ch.isDigit = true) : jsonWsChar ch = false := by
  have h1 : ch ≠ ' ' := fun hx => by rw [hx] at h; exact absurd h (by decide)
  have h2 : ch ≠ '\t' := fun hx => by rw [hx] at h; exact absurd h (by decide)
  have h3 : ch ≠ '\n' := fun hx => by rw [hx] at h; exact absurd h (by decide)
  have h4 : ch ≠ '\r' := fun hx => by rw [hx] at h; exact absurd h (by decide)
  simp [jsonWsChar, h1, h2, h3, h4]

theorem jpVal_nat (F n : Nat) (rest : List Char)
    (hrest : ∀ ch, rest.head? = some ch → ch.isDigit = false) :
    jpVal (F + 1) (natDigits n ++ rest) = some (Jval.jnum (n : Int), rest) := by
  obtain ⟨c, cs, hcons⟩ : ∃ c cs, natDigits n = c :: cs := by
    cases h : natDigits n with
    | nil => exact absurd h (natDigits_ne_nil n)
    | cons c cs => exact ⟨c, cs, rfl⟩
  have hcd : c.isDigit = true := natDigits_all_digit n c (by rw [hcons]; exact List.mem_cons_self c cs)
  have hpr : parseDecRest 0 (c :: (cs ++ rest)) = (n, rest) := by
    have hx : c :: (cs ++ rest) = natDigits n ++ rest := by rw [hcons]; rfl
    rw [hx, parseDecRest_digits n 0 rest]
    simpa using parseDecRest_stop n rest hrest
  rw [hcons, List.cons_append]
  simp only [jpVal]
  rw [skipJWs_cons_of_not_ws (digit_not_jsonWs hcd)]
  simp only [hcd, if_pos, hpr]

theorem encodeState_toList (cp : Checkpoint) :
    (encodeState cp).toList =
      '\x7b' :: '"' :: 'm' :: 'I' :: 'd' :: 'x' :: '"' :: ':' ::
        (natDigits cp.mIdx ++ (',' :: '"' :: 'c' :: 'I' :: 'd' :: 'x' :: '"' :: ':' ::
          (natDigits cp.cIdx ++ (',' :: '"' :: 'p' :: 'I' :: 'd' :: 'x' :: '"' :: ':' ::
            (natDigits cp.pIdx ++ ['\x7d']))))) := by
  have d1 : ("\x7b\"mIdx\":" : String).data = ['\x7b', '"', 'm', 'I', 'd', 'x', '"', ':'] := rfl
  have d2 : (",\"cIdx\":" : String).data = [',', '"', 'c', 'I', 'd', 'x', '"', ':'] := rfl
  have d3 : (",\"pIdx\":" : String).data = [',', '"', 'p', 'I', 'd', 'x', '"', ':'] := rfl
  have d4 : ("\x7d" : String).data = ['\x7d'] := rfl
  have d5 : ∀ l : List Char, (String.mk l).data = l := fun _ => rfl
  show (encodeState cp).data = _
  simp [encodeState, natToString, String.data_append, d1, d2, d3, d4, d5, List.append_assoc]

theorem jpMembersF_step_cont (vp : List Char → Option (Jval × List Char)) (F : Nat)
    (cs cs1 cs2 cs3 cs4 cs5 : List Char) (k : String) (v : Jval)
    (acc : List (String × Jval))
    (h1 : skipJWs cs = '"' :: cs1) (h2 : jpStrAux [] cs1 = some (k, cs2))
    (h3 : skipJWs cs2 = ':' :: cs3) (h4 : vp cs3 = some (v, cs4))
    (h5 : skipJWs cs4 = ',' :: cs5) :
    jpMembersF vp (F + 1) cs acc = jpMembersF vp F cs5 (acc ++ [(k, v)]) := by
  simp only [jpMembersF, h1, h2, h3, h4, h5]
  rfl

theorem jpMembersF_step_end (vp : List Char → Option (Jval × List Char)) (F : Nat)
    (cs cs1 cs2 cs3 cs4 cs5 : List Char) (k : String) (v : Jval)
    (acc : List (String × Jval))
    (h1 : skipJWs cs = '"' :: cs1) (h2 : jpStrAux [] cs1 = some (k, cs2))
    (h3 : skipJWs cs2 = ':' :: cs3) (h4 : vp cs3 = some (v, cs4))
    (h5 : skipJWs cs4 = '\x7d' :: cs5) :
    jpMembersF vp (F + 1) cs acc = some (Jval.jobj (acc ++ [(k, v)]), cs5) := by
  simp only [jpMembersF, h1, h2, h3, h4, h5]
  rfl

theorem jpVal_obj_step (F : Nat) (cs cs1 : List Char)
    (h1 : skipJWs cs = '\x7b' :: cs1)
    (h2 : ∃ c2 cs2, skipJWs cs1 = c2 :: cs2 ∧ (c2 == '\x7d') = false) :
    jpVal (F + 1) cs = jpMembersF (jpVal F) F cs1 [] := by
  obtain ⟨c2, cs2, h2a, h2b⟩ := h2
  simp only [jpVal, h1, h2a, h2b]
  rfl

theorem head_not_digit_of {c : Char} (hc : c.isDigit = false) (X : List Char) :
    ∀ ch, ((c :: X).head? = some ch) → ch.isDigit = false := by
  intro ch h
  simp only [List.head?_cons, Option.some.injEq] at h
  rw [← h]
  exact hc

theorem jpVal_encList (cp : Checkpoint) (G : Nat) :
    jpVal (G + 4) ((encodeState cp).toList) = some (objOfState cp, []) := by
  rw [encodeState_toList]
  rw [jpVal_obj_step (G + 3) ('\x7b' :: ('"' :: 'm' :: 'I' :: 'd' :: 'x' :: '"' :: ':' :: (natDigits cp.mIdx ++ (',' :: ('"' :: 'c' :: 'I' :: 'd' :: 'x' :: '"' :: ':' :: (natDigits cp.cIdx ++ (',' :: ('"' :: 'p' :: 'I' :: 'd' :: 'x' :: '"' :: ':' :: (natDigits cp.pIdx ++ ['\x7d']))))))))) ('"' :: 'm' :: 'I' :: 'd' :: 'x' :: '"' :: ':' :: (natDigits cp.mIdx ++ (',' :: ('"' :: 'c' :: 'I' :: 'd' :: 'x' :: '"' :: ':' :: (natDigits cp.cIdx ++ (',' :: ('"' :: 'p' :: 'I' :: 'd' :: 'x' :: '"' :: ':' :: (natDigits cp.pIdx ++ ['\x7d'])))))))) rfl ⟨'"', _, rfl, by decide⟩]
  rw [jpMembersF_step_cont (jpVal (G + 3)) (G + 2) ('"' :: 'm' :: 'I' :: 'd' :: 'x' :: '"' :: ':' :: (natDigits cp.mIdx ++ (',' :: ('"' :: 'c' :: 'I' :: 'd' :: 'x' :: '"' :: ':' :: (natDigits cp.cIdx ++ (',' :: ('"' :: 'p' :: 'I' :: 'd' :: 'x' :: '"' :: ':' :: (natDigits cp.pIdx ++ ['\x7d']))))))))
    ('m' :: 'I' :: 'd' :: 'x' :: '"' :: ':' :: (natDigits cp.mIdx ++ (',' :: ('"' :: 'c' :: 'I' :: 'd' :: 'x' :: '"' :: ':' :: (natDigits cp.cIdx ++ (',' :: ('"' :: 'p' :: 'I' :: 'd' :: 'x' :: '"' :: ':' :: (natDigits cp.pIdx ++ ['\x7d']))))))))
    (':' :: (natDigits cp.mIdx ++ (',' :: ('"' :: 'c' :: 'I' :: 'd' :: 'x' :: '"' :: ':' :: (natDigits cp.cIdx ++ (',' :: ('"' :: 'p' :: 'I' :: 'd' :: 'x' :: '"' :: ':' :: (natDigits cp.pIdx ++ ['\x7d']))))))))
    (natDigits cp.mIdx ++ (',' :: ('"' :: 'c' :: 'I' :: 'd' :: 'x' :: '"' :: ':' :: (natDigits cp.cIdx ++ (',' :: ('"' :: 'p' :: 'I' :: 'd' :: 'x' :: '"' :: ':' :: (natDigits cp.pIdx ++ ['\x7d'])))))))
    (',' :: ('"' :: 'c' :: 'I' :: 'd' :: 'x' :: '"' :: ':' :: (natDigits cp.cIdx ++ (',' :: ('"' :: 'p' :: 'I' :: 'd' :: 'x' :: '"' :: ':' :: (natDigits cp.pIdx ++ ['\x7d']))))))
    ('"' :: 'c' :: 'I' :: 'd' :: 'x' :: '"' :: ':' :: (natDigits cp.cIdx ++ (',' :: ('"' :: 'p' :: 'I' :: 'd' :: 'x' :: '"' :: ':' :: (natDigits cp.pIdx ++ ['\x7d'])))))
    "mIdx" (Jval.jnum (cp.mIdx : Int)) [] rfl rfl rfl
    (jpVal_nat (G + 2) cp.mIdx (',' :: ('"' :: 'c' :: 'I' :: 'd' :: 'x' :: '"' :: ':' :: (natDigits cp.cIdx ++ (',' :: ('"' :: 'p' :: 'I' :: 'd' :: 'x' :: '"' :: ':' :: (natDigits cp.pIdx ++ ['\x7d'])))))) (head_not_digit_of (by decide) _)) rfl]
  simp only [List.nil_append]
  rw [jpMembersF_step_cont (jpVal (G + 3)) (G + 1) ('"' :: 'c' :: 'I' :: 'd' :: 'x' :: '"' :: ':' :: (natDigits cp.cIdx ++ (',' :: ('"' :: 'p' :: 'I' :: 'd' :: 'x' :: '"' :: ':' :: (natDigits cp.pIdx ++ ['\x7d'])))))
    ('c' :: 'I' :: 'd' :: 'x' :: '"' :: ':' :: (natDigits cp.cIdx ++ (',' :: ('"' :: 'p' :: 'I' :: 'd' :: 'x' :: '"' :: ':' :: (natDigits cp.pIdx ++ ['\x7d'])))))
    (':' :: (natDigits cp.cIdx ++ (',' :: ('"' :: 'p' :: 'I' :: 'd' :: 'x' :: '"' :: ':' :: (natDigits cp.pIdx ++ ['\x7d'])))))
    (natDigits cp.cIdx ++ (',' :: ('"' :: 'p' :: 'I' :: 'd' :: 'x' :: '"' :: ':' :: (natDigits cp.pIdx ++ ['\x7d']))))
    (',' :: ('"' :: 'p' :: 'I' :: 'd' :: 'x' :: '"' :: ':' :: (natDigits cp.pIdx ++ ['\x7d'])))
    ('"' :: 'p' :: 'I' :: 'd' :: 'x' :: '"' :: ':' :: (natDigits cp.pIdx ++ ['\x7d']))
    "cIdx" (Jval.jnum (cp.cIdx : Int)) ([("mIdx", Jval.jnum (cp.mIdx : Int))]) rfl rfl rfl
    (jpVal_nat (G + 2) cp.cIdx (',' :: ('"' :: 'p' :: 'I' :: 'd' :: 'x' :: '"' :: ':' :: (natDigits cp.pIdx ++ ['\x7d']))) (head_not_digit_of (by decide) _)) rfl]
  simp only [List.singleton_append]
  rw [jpMembersF_step_end (jpVal (G + 3)) G ('"' :: 'p' :: 'I' :: 'd' :: 'x' :: '"' :: ':' :: (natDigits cp.pIdx ++ ['\x7d']))
    ('p' :: 'I' :: 'd' :: 'x' :: '"' :: ':' :: (natDigits cp.pIdx ++ ['\x7d']))
    (':' :: (natDigits cp.pIdx ++ ['\x7d']))
    (natDigits cp.pIdx ++ ['\x7d'])
    ['\x7d']
    ([] : List Char)
    "pIdx" (Jval.jnum (cp.pIdx : Int))
    ([("mIdx", Jval.jnum (cp.mIdx : Int)), ("cIdx", Jval.jnum (cp.cIdx : Int))]) rfl rfl rfl
    (jpVal_nat (G + 2) cp.pIdx ['\x7d'] (head_not_digit_of (by decide) _)) rfl]
  simp [objOfState]

theorem jparse_encodeState (cp : Checkpoint) :
    jparse (encodeState cp) = some (objOfState cp) := by
  unfold jparse
  obtain ⟨G, hG⟩ : ∃ G, (encodeState cp).length + 1 = G + 4 := by
    refine ⟨(encodeState cp).length - 3, ?_⟩
    have hdl : (encodeState cp).length = ((encodeState cp).toList).length := rfl
    have hlen : 3 ≤ (encodeState cp).length := by
      rw [hdl, encodeState_toList]
      simp only [List.length_cons]
      omega
    omega
  rw [hG, jpVal_encList cp G]
  simp [skipJWs]

theorem encodeState_ne_empty (cp : Checkpoint) : encodeState cp ≠ "" := by
  intro hx
  have hdata : (encodeState cp).toList = [] := by rw [hx]; rfl
  rw [encodeState_toList] at hdata
  cases hdata

/-- Claim C8 (amended): checkpoint round-trip and fallback.  Persisting a
triple `{mIdx, cIdx, pIdx}` as JSON and loading it yields the identical
triple (the parsed object, whose three properties read back the original
values).  A missing stored value, an empty string, or a stored value on
which `JSON.parse` throws loads as the default `{0, 1, 0}`.  However, a
stored value that parses as JSON but is not a checkpoint object — e.g.
`"5"` — is used as-is rather than replaced by the default (see the
counterexample), so the fallback covers only unparseable values, not every
malformed one. -/
theorem claim_C8 :
    (∀ cp : Checkpoint, loadState (some (encodeState cp)) = objOfState cp ∧
      jsGet (loadState (some (encodeState cp))) "mIdx" = some (Jval.jnum (cp.mIdx : Int)) ∧
      jsGet (loadState (some (encodeState cp))) "cIdx" = some (Jval.jnum (cp.cIdx : Int)) ∧
      jsGet (loadState (some (encodeState cp))) "pIdx" = some (Jval.jnum (cp.pIdx : Int))) ∧
    loadState none = defaultStateJ ∧
    loadState (some "") = defaultStateJ ∧
    (∀ s, jparse s = none → loadState (some s) = defaultStateJ) := by
  have hload : ∀ cp : Checkpoint, loadState (some (encodeState cp)) = objOfState cp := by
    intro cp
    show (if ((encodeState cp == "") = true) then defaultStateJ
      else match jparse (encodeState cp) with
        | some v => v
        | none => defaultStateJ) = objOfState cp
    rw [if_neg (by simp [encodeState_ne_empty cp]), jparse_encodeState cp]
  refine ⟨?_, rfl, rfl, ?_⟩
  · intro cp
    refine ⟨hload cp, ?_, ?_, ?_⟩ <;> rw [hload cp] <;> rfl
  · intro s hs
    show (if ((s == "") = true) then defaultStateJ
      else match jparse s with
        | some v => v
        | none => defaultStateJ) = defaultStateJ
    by_cases hse : (s == "") = true
    · rw [if_pos hse]
    · rw [if_neg hse, hs]

/-- Counterexample to C8 as stated: the stored value `"5"` is malformed as a
checkpoint, yet it parses as JSON, so the load yields the number `5` — not
the default `{0, 1, 0}` — and every subsequent field access on it is
`undefined`. -/
theorem claim_C8_counterexample :
    loadState (some "5") = Jval.jnum 5 ∧
    Jval.jnum 5 ≠ defaultStateJ ∧
    jsGet (loadState (some "5")) "mIdx" = none :=
  ⟨rfl, by simp [defaultStateJ], rfl⟩

/-- Concrete instance of the amended C8: round trip of `{2, 3, 4}` and the
fallback on the unparseable stored value `"{"`. -/
theorem claim_C8_witness :
    loadState (some (encodeState ⟨2, 3, 4⟩)) = objOfState ⟨2, 3, 4⟩ ∧
    loadState (some "\x7b") = defaultStateJ :=
  ⟨(claim_C8.1 ⟨2, 3, 4⟩).1, claim_C8.2.2.2 "\x7b" rfl⟩
